import Mathlib

/-!
# Forward chainer of the unified rule engine: a shallow embedding

The definitions below follow `opencog/rule-engine/forwardchainer/ForwardChainer.cc`
function by function, and the source and target tests of `AtomSpace/Link.cc`.
Collaborators whose code is not part of the sources
(the pattern matcher, the instantiator, the tournament sampler, the class
server, the configuration reader, the logger) are fields of `Env`, so every
theorem holds for all of their behaviours.
-/

namespace URE

/-! ## Atoms and handles -/

/-- Type codes that the chainer names, and `other` for every remaining code. -/
inductive AtomType
  | NOTYPE
  | NODE
  | LINK
  | VARIABLE_NODE
  | TYPED_VARIABLE_LINK
  | VARIABLE_LIST
  | BIND_LINK
  | SET_LINK
  | AND_LINK
  | OR_LINK
  | NOT_LINK
  | VIRTUAL_LINK
  | ORDERED_LINK
  | UNORDERED_LINK
  | other (code : Nat)
  deriving DecidableEq, Repr

/-- A handle: either `Handle::UNDEFINED` or an atom, which is a node (type and
name) or a link (type and outgoing sequence).  Handles compare by structure. -/
inductive Handle
  | UNDEFINED
  | node (t : AtomType) (name : String)
  | link (t : AtomType) (outgoing : List Handle)

abbrev HandleSeq := List Handle

/-- `std::set<Handle>` and `UnorderedHandleSet`, kept as a sequence without
repetition; the iteration order of the C++ container is unspecified and is
taken here to be the insertion order. -/
abbrev UnorderedHandleSet := List Handle

/-- `std::map<Handle, Handle>` as an association sequence. -/
abbrev HandleMap := List (Handle × Handle)

/-- The C `float` of a weight; the chainer only passes it to the sampler. -/
abbrev Weight := Nat

mutual
/-- Structural equality of handles is decidable. -/
def Handle.decEq : (a b : Handle) → Decidable (a = b)
  | .UNDEFINED, .UNDEFINED => isTrue rfl
  | .node t n, .node t2 n2 =>
    if h : t = t2 ∧ n = n2 then isTrue (by rw [h.1, h.2])
    else isFalse (fun e => h (by cases e; exact ⟨rfl, rfl⟩))
  | .link t o, .link t2 o2 =>
    match (inferInstance : Decidable (t = t2)), Handle.decEqSeq o o2 with
    | isTrue h1, isTrue h2 => isTrue (by rw [h1, h2])
    | isFalse h1, _ => isFalse (fun e => h1 (by cases e; rfl))
    | _, isFalse h2 => isFalse (fun e => h2 (by cases e; rfl))
  | .UNDEFINED, .node _ _ => isFalse (fun e => by cases e)
  | .UNDEFINED, .link _ _ => isFalse (fun e => by cases e)
  | .node _ _, .UNDEFINED => isFalse (fun e => by cases e)
  | .node _ _, .link _ _ => isFalse (fun e => by cases e)
  | .link _ _, .UNDEFINED => isFalse (fun e => by cases e)
  | .link _ _, .node _ _ => isFalse (fun e => by cases e)
/-- Structural equality of outgoing sequences is decidable. -/
def Handle.decEqSeq : (a b : List Handle) → Decidable (a = b)
  | [], [] => isTrue rfl
  | a :: as, b :: bs =>
    match Handle.decEq a b, Handle.decEqSeq as bs with
    | isTrue h1, isTrue h2 => isTrue (by rw [h1, h2])
    | isFalse h1, _ => isFalse (fun e => h1 (by cases e; rfl))
    | _, isFalse h2 => isFalse (fun e => h2 (by cases e; rfl))
  | [], _ :: _ => isFalse (fun e => by cases e)
  | _ :: _, [] => isFalse (fun e => by cases e)
end

instance : DecidableEq Handle := Handle.decEq

/-- `h->getType()`; the undefined handle has no atom and is given `NOTYPE`. -/
def Handle.getType : Handle → AtomType
  | .UNDEFINED => .NOTYPE
  | .node t _ => t
  | .link t _ => t

/-- `LinkCast(h)`: true exactly for links. -/
def Handle.isLink : Handle → Bool
  | .link _ _ => true
  | _ => false

/-- `LinkCast(h)->getOutgoingSet()`; a handle that is not a link has no
outgoing set and yields the empty sequence. -/
def Handle.getOutgoingSet : Handle → HandleSeq
  | .link _ o => o
  | _ => []

/-- A VariableNode: a node whose type is `VARIABLE_NODE`. -/
def Handle.isVariableNode : Handle → Bool
  | .node .VARIABLE_NODE _ => true
  | _ => false

/-! ## Sets and maps -/

/-- `s.insert(h)` on a handle set. -/
def set_insert (s : UnorderedHandleSet) (h : Handle) : UnorderedHandleSet :=
  if h ∈ s then s else s ++ [h]

/-- `s.insert(first, last)` on a handle set. -/
def set_insert_range (s : UnorderedHandleSet) (hs : HandleSeq) : UnorderedHandleSet :=
  hs.foldl set_insert s

/-- `m[k] = v` on a `std::map`. -/
def map_set {K V : Type} [DecidableEq K] (m : List (K × V)) (k : K) (v : V) : List (K × V) :=
  if m.any (fun p => decide (p.1 = k)) then
    m.map (fun p => if p.1 = k then (k, v) else p)
  else m ++ [(k, v)]

/-- `m.erase(k)` on a `std::map`. -/
def map_erase {K V : Type} [DecidableEq K] (m : List (K × V)) (k : K) : List (K × V) :=
  m.filter (fun p => decide (p.1 ≠ k))

/-! ## Fact stores -/

/-- Modelled from the spec: the fact-store (`AtomSpace`, not among the sources):
a collection of atoms with membership lookup and nesting, where reads fall
through to the ancestors (`environ`, nearest first) and writes stay local. -/
structure AtomSpace where
  atoms : List Handle
  environ : List (List Handle)
  deriving DecidableEq

mutual
/-- An atom together with everything reachable through outgoing sets, the
outgoing atoms first: the atoms that interning `h` makes present. -/
def all_atoms : Handle → List Handle
  | .UNDEFINED => []
  | .node t n => [.node t n]
  | .link t o => all_atoms_seq o ++ [.link t o]
/-- The sequence version of `all_atoms`. -/
def all_atoms_seq : List Handle → List Handle
  | [] => []
  | h :: hs => all_atoms h ++ all_atoms_seq hs
end

namespace AtomSpace

/-- A fresh store without parent (`AtomSpace temp_pm_as;`). -/
def empty : AtomSpace := ⟨[], []⟩

/-- A fresh child store (`AtomSpace derived_rule_as(&parent);`). -/
def child (parent : AtomSpace) : AtomSpace := ⟨[], parent.atoms :: parent.environ⟩

/-- Membership lookup, falling through to the ancestors. -/
def contains (as : AtomSpace) (h : Handle) : Bool :=
  decide (h ∈ as.atoms) || as.environ.any (fun p => decide (h ∈ p))

/-- `as.get_atom(h)`: the atom if present, `Handle::UNDEFINED` otherwise. -/
def get_atom (as : AtomSpace) (h : Handle) : Handle :=
  if as.contains h then h else .UNDEFINED

/-- Interns one atom locally unless it is already visible. -/
def add_one (as : AtomSpace) (h : Handle) : AtomSpace :=
  if as.contains h then as else { as with atoms := as.atoms ++ [h] }

/-- `as.add_atom(h)`: interns `h` and the atoms below it; the returned handle
is `h` itself, handles being compared by structure. -/
def add_atom (as : AtomSpace) (h : Handle) : AtomSpace :=
  (all_atoms h).foldl add_one as

/-- `as.add_link(t, outgoing)`: interns the link of that type and outgoing set. -/
def add_link (as : AtomSpace) (t : AtomType) (outgoing : HandleSeq) : AtomSpace :=
  as.add_atom (.link t outgoing)

end AtomSpace

/-! ## Rules -/

/-- Modelled from the spec: `Rule` (`opencog/rule-engine/Rule.h` is not among
the sources): a named handle to a BindLink (variable declaration, body,
implicand) plus a scalar weight. -/
structure Rule where
  name : String
  vardecl : Handle
  body : Handle
  implicand : Handle
  weight : Weight
  deriving DecidableEq

/-- A `Rule*`: the address of a rule object together with the object. -/
structure RulePtr where
  addr : Nat
  obj : Rule
  deriving DecidableEq

/-- `rule->get_handle()`: the rule's BindLink. -/
def RulePtr.get_handle (r : RulePtr) : Handle :=
  .link .BIND_LINK [r.obj.vardecl, r.obj.body, r.obj.implicand]

/-- `rule->get_vardecl()`. -/
def RulePtr.get_vardecl (r : RulePtr) : Handle := r.obj.vardecl

/-- `rule->get_weight()`. -/
def RulePtr.get_weight (r : RulePtr) : Weight := r.obj.weight

/-- `rule->get_implicant_seq()`: the body flattened when it is an `AND_LINK` or
`OR_LINK`, the single body otherwise. -/
def RulePtr.get_implicant_seq (r : RulePtr) : HandleSeq :=
  if r.obj.body.getType = .AND_LINK ∨ r.obj.body.getType = .OR_LINK then
    r.obj.body.getOutgoingSet
  else [r.obj.body]

/-- `BindLinkCast(h)`: the three parts of a BindLink, or nothing. -/
def BindLinkCast : Handle → Option (Handle × Handle × Handle)
  | .link .BIND_LINK [v, b, i] => some (v, b, i)
  | _ => none

/-- A rule map `std::map<Rule*, float>`. -/
abbrev RuleMap := List (RulePtr × Weight)

/-! ## External collaborators -/

/-- The collaborators of the chainer that the sources only call. -/
structure Env where
  /-- The class hierarchy: `classserver().isA(t, ancestor)`. -/
  isA : AtomType → AtomType → Bool
  /-- The truth-value fitness `urec.tv_fitness(s)`. -/
  tv_fitness : Handle → Weight
  /-- The short-term importance `s->getSTI()`. -/
  getSTI : Handle → Weight
  /-- The random choice made by the n-th tournament over sources. -/
  pick_source : Nat → List (Handle × Weight) → Nat
  /-- The random choice made by the n-th tournament over rules. -/
  pick_rule : Nat → RuleMap → Nat
  /-- The pattern matcher `bindlink(as, bindlink_handle)`. -/
  bindlink : AtomSpace → Handle → Handle
  /-- The matcher run with `VarGroundingPMCB`: term and variable groundings. -/
  imply_VarGroundingPMCB : AtomSpace → Handle → List HandleMap × List HandleMap
  /-- The matcher run with `FocusSetPMCB(child_as, as)`: its result list. -/
  imply_FocusSetPMCB : AtomSpace → AtomSpace → Handle → HandleSeq
  /-- The instantiator `Instantiator(as).instantiate(template, empty_map)`. -/
  instantiate : AtomSpace → Handle → Handle
  /-- Whether the chainer logger evaluates the operands of `LAZY_FC_LOG_DEBUG`. -/
  is_debug_enabled : Bool

/-- Modelled from the spec: `tournament_select` (`URECommons` is not among the
sources): it returns some key of the weight map it is given, here the key at
the position the random choice points to; on an empty map there is no key. -/
def tournament_select {K : Type} (pick : Nat → List (K × Weight) → Nat) (draw : Nat)
    (m : List (K × Weight)) : Option K :=
  (m.get? (pick draw m % m.length)).map Prod.fst

/-! ## Variable search -/

mutual
/-- Modelled from the spec: `FindAtoms(VARIABLE_NODE)::search_set`
(`opencog/atomutils/FindUtils.h` is not among the sources): the VariableNodes
met while walking an atom through its outgoing sets, left to right. -/
def find_rec : Handle → List Handle
  | .UNDEFINED => []
  | .node t n => if t = .VARIABLE_NODE then [.node t n] else []
  | .link _ o => find_rec_seq o
/-- The sequence version of `find_rec`. -/
def find_rec_seq : List Handle → List Handle
  | [] => []
  | h :: hs => find_rec h ++ find_rec_seq hs
end

/-- The state of a `FindAtoms` object: its `varset`. -/
structure FindAtoms where
  varset : UnorderedHandleSet

/-- `FindAtoms fv(VARIABLE_NODE);` -/
def FindAtoms.new : FindAtoms := ⟨[]⟩

/-- `fv.search_set(h)`: the variables of `h` are added to `fv.varset`. -/
def FindAtoms.search_set (fv : FindAtoms) (h : Handle) : FindAtoms :=
  ⟨set_insert_range fv.varset (find_rec h)⟩

/-- Modelled from the spec: `contains_atomtype(h, VARIABLE_NODE)` (FindUtils,
not among the sources): whether a VariableNode occurs anywhere in `h`. -/
def contains_VARIABLE_NODE (h : Handle) : Bool :=
  !(find_rec h).isEmpty

mutual
/-- Modelled from the spec: `Substitutor::substitute` (not among the sources):
a pure structural rewrite that replaces every atom that is a key of the map by
its value and rebuilds the links above it. -/
def substitute (vm : HandleMap) : Handle → Handle
  | .UNDEFINED => .UNDEFINED
  | .node t n =>
    match vm.lookup (.node t n) with
    | some g => g
    | none => .node t n
  | .link t o =>
    match vm.lookup (.link t o) with
    | some g => g
    | none => .link t (substitute_seq vm o)
/-- The sequence version of `substitute`. -/
def substitute_seq (vm : HandleMap) : List Handle → List Handle
  | [] => []
  | h :: hs => substitute vm h :: substitute_seq vm hs
end

/-! ## The chainer: pure parts -/

/-- `ForwardChainer::gen_sub_varlist(parent, parent_varlist)`. -/
def gen_sub_varlist (parent parent_varlist : Handle) : Handle :=
  let fv := FindAtoms.new.search_set parent
  let oset : HandleSeq :=
    if parent_varlist.isLink then parent_varlist.getOutgoingSet else [parent_varlist]
  let final_oset := oset.filter (fun h =>
    let t := h.getType
    (decide (AtomType.VARIABLE_NODE = t) && decide (h ∈ fv.varset))
    || (decide (AtomType.TYPED_VARIABLE_LINK = t)
        && (match h.getOutgoingSet.head? with
            | some v => decide (v ∈ fv.varset)
            | none => false)))
  .link .VARIABLE_LIST final_oset

/-- `ForwardChainer::is_valid_implicant(h)`. -/
def is_valid_implicant (env : Env) (h : Handle) : Bool :=
  let fv := FindAtoms.new.search_set h
  decide (h.getType ≠ .NOT_LINK)
    && !(env.isA h.getType .VIRTUAL_LINK)
    && !fv.varset.isEmpty

/-- `ForwardChainer::unify(source, term, rule)`. -/
def unify (env : Env) (source term : Handle) (rule : RulePtr) : Bool :=
  if !is_valid_implicant env term then false
  else
    let temp_pm_as := AtomSpace.empty.add_atom term
    let implicant_vardecl := gen_sub_varlist term rule.get_vardecl
    let temp_pm_as := temp_pm_as.add_atom implicant_vardecl
    let temp_pm_as := temp_pm_as.add_atom source
    let blhandle := Handle.link .BIND_LINK [implicant_vardecl, term, term]
    let temp_pm_as := temp_pm_as.add_atom blhandle
    let result := env.bindlink temp_pm_as blhandle
    decide (source ∈ result.getOutgoingSet)

/-- The `del_by_value` helper of `derive_rules`: every entry whose value is `h`
is removed from every map.  (The C++ erases while it iterates; the removal of
all such entries is what it is written to do.) -/
def del_by_value (vec_map : List HandleMap) (h : Handle) : List HandleMap :=
  vec_map.map (fun m => m.filter (fun it => decide (it.2 ≠ h)))

/-- `ForwardChainer::substitute_rule_part(as, hrule, vars, var_groundings)`.
The store `as` only receives the new atoms and is discarded by the caller, so
it is left out.  A handle that is not a BindLink has no body to rewrite. -/
def substitute_rule_part (hrule : Handle) (vars : UnorderedHandleSet)
    (var_groundings : List HandleMap) : HandleSeq :=
  let filtered_vgmap_list : List HandleMap := var_groundings.map (fun varg_map =>
    varg_map.foldl (fun filtered iv =>
      if iv.1 ∈ vars then map_set filtered iv.1 iv.2 else filtered) [])
  match BindLinkCast hrule with
  | none => []
  | some (decl, body, implicand) =>
    filtered_vgmap_list.map (fun vgmap =>
      let himplicand := substitute vgmap implicand
      let himplicant := substitute vgmap body
      let hvarlist := gen_sub_varlist himplicant decl
      Handle.link .BIND_LINK [hvarlist, himplicant, himplicand])

/-- The body of the inner loop of `derive_rules(source, term, rule)` for one
term-grounding entry `it`; `fv` is the `FindAtoms` object declared before the
loops and `derived_rules` the set built so far. -/
def derive_rules_entry (sourcecpy : Handle) (rule : RulePtr) (var_groundings : List HandleMap)
    (acc : FindAtoms × UnorderedHandleSet) (it : Handle × Handle) :
    FindAtoms × UnorderedHandleSet :=
  if it.2 = sourcecpy then
    let fv := acc.1.search_set it.1
    let rhandle := rule.get_handle
    let new_candidate_rules := substitute_rule_part rhandle fv.varset var_groundings
    (fv, new_candidate_rules.foldl
      (fun derived_rules nr => if nr ≠ rhandle then set_insert derived_rules nr else derived_rules)
      acc.2)
  else acc

/-- `ForwardChainer::derive_rules(source, term, rule)`. -/
def derive_rules_term (env : Env) (source term : Handle) (rule : RulePtr) :
    UnorderedHandleSet :=
  if !is_valid_implicant env term then []
  else
    let temp_pm_as := AtomSpace.empty.add_atom term
    let implicant_vardecl := gen_sub_varlist term rule.get_vardecl
    let temp_pm_as := temp_pm_as.add_atom implicant_vardecl
    let temp_pm_as := temp_pm_as.add_atom source
    let h := Handle.link .BIND_LINK [implicant_vardecl, term, term]
    let temp_pm_as := temp_pm_as.add_atom h
    let gcb := env.imply_VarGroundingPMCB temp_pm_as h
    let term_groundings := del_by_value gcb.1 implicant_vardecl
    let var_groundings := del_by_value gcb.2 implicant_vardecl
    (term_groundings.foldl
      (fun acc termg_map => termg_map.foldl (derive_rules_entry source rule var_groundings) acc)
      (FindAtoms.new, [])).2

/-- `ForwardChainer::derive_rules(source, rule)`. -/
def derive_rules (env : Env) (source : Handle) (rule : RulePtr) : UnorderedHandleSet :=
  rule.get_implicant_seq.foldl
    (fun derived_rules term => set_insert_range derived_rules (derive_rules_term env source term rule))
    []

/-! ## The chainer: state -/

/-- The two source selection modes of `ForwardChainer.h`. -/
inductive source_selection_mode
  | TV_FITNESS_BASED
  | STI_BASED
  deriving DecidableEq

/-- Modelled from the spec: one inference record (source, rule, product-set). -/
structure InferenceRecord where
  hsource : Handle
  rule : RulePtr
  product : UnorderedHandleSet
  deriving DecidableEq

/-- Modelled from the spec: the statistics recorder, an append-only log. -/
structure FCStat where
  records : List InferenceRecord
  deriving DecidableEq

/-- `_fcstat.add_inference_record(source, rule, products)`. -/
def FCStat.add_inference_record (st : FCStat) (hsource : Handle) (rule : RulePtr)
    (product : UnorderedHandleSet) : FCStat :=
  ⟨st.records ++ [⟨hsource, rule, product⟩]⟩

/-- `_fcstat.get_all_products()`: the union of the recorded product-sets. -/
def FCStat.get_all_products (st : FCStat) : UnorderedHandleSet :=
  st.records.foldl (fun all r => set_insert_range all r.product) []

/-- Modelled from the spec: what the configuration reader exposes. -/
structure UREConfigReader where
  rules : List Rule
  maximum_iterations : Int
  attention_allocation : Bool

/-- The data members of `ForwardChainer`, and `draws`: how many tournament
selections the random generator has served so far. -/
structure ForwardChainer where
  _as : AtomSpace
  _configReader : UREConfigReader
  _focus_set_as : AtomSpace
  _focus_set : HandleSeq
  _search_in_af : Bool
  _search_focus_set : Bool
  _ts_mode : source_selection_mode
  _potential_sources : UnorderedHandleSet
  _selected_sources : UnorderedHandleSet
  _cur_source : Handle
  _rules : List RulePtr
  _iteration : Int
  _max_iteration : Int
  _fcstat : FCStat
  draws : Nat

/-- The exceptions that the sources throw. -/
inductive Exception
  | RuntimeException (msg : String)
  | InvalidParamException (msg : String)
  | IndexErrorException (msg : String)
  deriving DecidableEq

/-! ## The chainer: operations -/

/-- `ForwardChainer::update_potential_sources(input)`. -/
def update_potential_sources (fc : ForwardChainer) (input : HandleSeq) : ForwardChainer :=
  { fc with _potential_sources := set_insert_range fc._potential_sources input }

/-- `ForwardChainer::validate(hsource, hfocus_set)`. -/
def validate (hsource : Handle) (_hfocus_set : HandleSeq) : Except Exception Unit :=
  if hsource = .UNDEFINED then
    .error (.RuntimeException "ForwardChainer - Invalid source.")
  else .ok ()

/-- The addresses `&r` of the rules of the configuration reader, in order. -/
def rule_pointers : Nat → List Rule → List RulePtr
  | _, [] => []
  | a, r :: rs => ⟨a, r⟩ :: rule_pointers (a + 1) rs

/-- `ForwardChainer::init(hsource, focus_set)`. -/
def init (fc : ForwardChainer) (hsource : Handle) (focus_set : HandleSeq) :
    Except Exception ForwardChainer :=
  match validate hsource focus_set with
  | .error e => .error e
  | .ok () =>
    let fc := { fc with
      _search_in_af := fc._configReader.attention_allocation
      _search_focus_set := !focus_set.isEmpty
      _ts_mode := .TV_FITNESS_BASED }
    let init_sources : HandleSeq :=
      if hsource.getType = .SET_LINK then hsource.getOutgoingSet else [hsource]
    let fc := update_potential_sources fc init_sources
    let fc :=
      if fc._search_focus_set then
        let fc := { fc with _focus_set := focus_set }
        let fsas := fc._focus_set.foldl AtomSpace.add_atom fc._focus_set_as
        let fsas := fc._potential_sources.foldl AtomSpace.add_atom fsas
        { fc with _focus_set_as := fsas }
      else fc
    let fc := { fc with _rules := fc._rules ++ rule_pointers 0 fc._configReader.rules }
    .ok { fc with _iteration := 0, _max_iteration := fc._configReader.maximum_iterations }

/-- The members as the constructor's initialiser list leaves them, before
`init` runs: the given store and configuration, everything else empty. -/
def ForwardChainer.members (as : AtomSpace) (cr : UREConfigReader) : ForwardChainer :=
  { _as := as, _configReader := cr, _focus_set_as := AtomSpace.empty, _focus_set := [],
    _search_in_af := false, _search_focus_set := false, _ts_mode := .TV_FITNESS_BASED,
    _potential_sources := [], _selected_sources := [], _cur_source := .UNDEFINED,
    _rules := [], _iteration := 0, _max_iteration := 0, _fcstat := ⟨[]⟩, draws := 0 }

/-- `ForwardChainer::ForwardChainer(as, rbs, hsource, focus_set)`; the rule base
handle `rbs` is only handed to the configuration reader. -/
def ForwardChainer.new (as : AtomSpace) (cr : UREConfigReader) (hsource : Handle)
    (focus_set : HandleSeq) : Except Exception ForwardChainer :=
  init (ForwardChainer.members as cr) hsource focus_set

/-- `ForwardChainer::termination()`. -/
def termination (fc : ForwardChainer) : Bool :=
  decide (fc._max_iteration ≤ fc._iteration)

/-- The novelty loop of `choose_source`: `n` rounds are left; the result is
`hchosen` (undefined when no round accepted) and the state. -/
def choose_source_loop (env : Env) (tournament_elem : List (Handle × Weight)) :
    Nat → ForwardChainer → Handle × ForwardChainer
  | 0, fc => (.UNDEFINED, fc)
  | n + 1, fc =>
    let hselected := (tournament_select env.pick_source fc.draws tournament_elem).getD .UNDEFINED
    let fc := { fc with draws := fc.draws + 1 }
    let selected_before := decide (hselected ∈ fc._selected_sources)
    if selected_before then choose_source_loop env tournament_elem n fc
    else (hselected, { fc with _selected_sources := set_insert fc._selected_sources hselected })

/-- The `switch (_ts_mode)` block of `choose_source`: the map `tournament_elem`
from every potential source to its weight under the selection mode. -/
def tournament_elem (env : Env) (fc : ForwardChainer) : List (Handle × Weight) :=
  match fc._ts_mode with
  | .TV_FITNESS_BASED =>
    fc._potential_sources.foldl (fun m s => map_set m s (env.tv_fitness s)) []
  | .STI_BASED =>
    fc._potential_sources.foldl (fun m s => map_set m s (env.getSTI s)) []

/-- `ForwardChainer::choose_source()`. -/
def choose_source (env : Env) (fc : ForwardChainer) : Handle × ForwardChainer :=
  let tournament_elem := tournament_elem env fc
  let r := choose_source_loop env tournament_elem tournament_elem.length fc
  if r.1 = .UNDEFINED then
    ((tournament_select env.pick_source r.2.draws tournament_elem).getD .UNDEFINED,
      { r.2 with draws := r.2.draws + 1 })
  else r

/-- The `while (not rule_weight.empty())` loop of `choose_rule`; `fuel` bounds
the number of rounds, and the number of keys of the map is always enough. -/
def choose_rule_loop (env : Env) (hsource : Handle) :
    Nat → RuleMap → Nat → Option RulePtr × Nat
  | 0, _, draws => (none, draws)
  | fuel + 1, rule_weight, draws =>
    match tournament_select env.pick_rule draws rule_weight with
    | none => (none, draws)
    | some temp =>
      if temp.get_implicant_seq.any (fun term => unify env hsource term temp) then
        (some temp, draws + 1)
      else choose_rule_loop env hsource fuel (map_erase rule_weight temp) (draws + 1)

/-- `ForwardChainer::choose_rule(hsource)`; `none` is the null pointer. -/
def choose_rule (env : Env) (fc : ForwardChainer) (hsource : Handle) :
    Option RulePtr × ForwardChainer :=
  let rule_weight : RuleMap := fc._rules.foldl (fun m r => map_set m r r.get_weight) []
  let r := choose_rule_loop env hsource rule_weight.length rule_weight fc.draws
  (r.1, { fc with draws := r.2 })

/-- The final block of `apply_rule(Handle)`: the result is added back to the
focus-set store when a focus set is searched, to the global store otherwise. -/
def add_result_back (fc : ForwardChainer) (result : HandleSeq) : ForwardChainer :=
  if fc._search_focus_set then
    { fc with _focus_set_as := result.foldl AtomSpace.add_atom fc._focus_set_as }
  else
    { fc with _as := result.foldl AtomSpace.add_atom fc._as }

/-- `ForwardChainer::apply_rule(Handle rhandle)`.  A handle that is not a
BindLink has no body and yields nothing. -/
def apply_rule_handle (env : Env) (fc : ForwardChainer) (rhandle : Handle) :
    HandleSeq × ForwardChainer :=
  match BindLinkCast rhandle with
  | none => ([], fc)
  | some (_, implicant, houtput) =>
    if !contains_VARIABLE_NODE rhandle then
      let hs : HandleSeq :=
        if implicant.getType = .AND_LINK ∨ implicant.getType = .OR_LINK then
          implicant.getOutgoingSet
        else [implicant]
      if hs.any (fun h =>
          decide (fc._as.get_atom h = .UNDEFINED)
          || (fc._search_focus_set && decide (fc._focus_set_as.get_atom h = .UNDEFINED))) then
        ([], fc)
      else
        let result := [env.instantiate fc._as houtput]
        (result, add_result_back fc result)
    else if fc._search_focus_set then
      let derived_rule_as := (AtomSpace.child fc._focus_set_as).add_atom rhandle
      let result := env.imply_FocusSetPMCB derived_rule_as fc._as rhandle
      let fc :=
        if env.is_debug_enabled then { fc with _as := fc._as.add_link .SET_LINK result }
        else fc
      (result, add_result_back fc result)
    else
      let derived_rule_as := (AtomSpace.child fc._as).add_atom rhandle
      let h := env.bindlink derived_rule_as rhandle
      let result : HandleSeq := if h.isLink then h.getOutgoingSet else []
      (result, add_result_back fc result)

/-- `ForwardChainer::apply_rule(const Rule* rule)`. -/
def apply_rule (env : Env) (fc : ForwardChainer) (rule : RulePtr) :
    UnorderedHandleSet × ForwardChainer :=
  let derived_rhandles := derive_rules env fc._cur_source rule
  if derived_rhandles.isEmpty then ([], fc)
  else
    derived_rhandles.foldl
      (fun acc rhandle =>
        let r := apply_rule_handle env acc.2 rhandle
        (set_insert_range acc.1 r.1, r.2))
      ([], fc)

/-- `ForwardChainer::do_step()`. -/
def do_step (env : Env) (fc : ForwardChainer) : ForwardChainer :=
  let r := choose_source env fc
  let fc := { r.2 with _cur_source := r.1 }
  let c := choose_rule env fc fc._cur_source
  match c.1 with
  | none => c.2
  | some rule =>
    let a := apply_rule env c.2 rule
    let fc := a.2
    { fc with
      _potential_sources := set_insert_range fc._potential_sources a.1
      _fcstat := fc._fcstat.add_inference_record fc._cur_source rule a.1
      _iteration := fc._iteration + 1 }

/-- The body of the loop of `apply_all_rules` for one rule. -/
def apply_all_rules_body (env : Env) (fc : ForwardChainer) (rule : RulePtr) : ForwardChainer :=
  let r := apply_rule_handle env fc rule.get_handle
  let fc := r.2
  let fc := { fc with
    _fcstat := fc._fcstat.add_inference_record .UNDEFINED rule (set_insert_range [] r.1) }
  update_potential_sources fc r.1

/-- The `for (Rule* rule : _rules)` loop of `apply_all_rules` over the rules
that are left. -/
def apply_all_rules_loop (env : Env) : List RulePtr → ForwardChainer → ForwardChainer
  | [], fc => fc
  | rule :: rest, fc => apply_all_rules_loop env rest (apply_all_rules_body env fc rule)

/-- `ForwardChainer::apply_all_rules()`. -/
def apply_all_rules (env : Env) (fc : ForwardChainer) : ForwardChainer :=
  apply_all_rules_loop env fc._rules fc

/-- The `while (not termination())` loop of `do_chain`.  The result is the
final state and the number of times `do_step` was invoked, or `none` when the
loop is still running after `fuel` invocations. -/
def do_chain_loop (env : Env) : Nat → ForwardChainer → Option (ForwardChainer × Nat)
  | 0, fc => if termination fc then some (fc, 0) else none
  | fuel + 1, fc =>
    if termination fc then some (fc, 0)
    else (do_chain_loop env fuel (do_step env fc)).map (fun r => (r.1, r.2 + 1))

/-- `ForwardChainer::do_chain()`, with the number of `do_step` invocations. -/
def do_chain (env : Env) (fuel : Nat) (fc : ForwardChainer) : Option (ForwardChainer × Nat) :=
  if fc._potential_sources.isEmpty then some (apply_all_rules env fc, 0)
  else do_chain_loop env fuel fc

/-- `ForwardChainer::get_chaining_result()`. -/
def get_chaining_result (fc : ForwardChainer) : UnorderedHandleSet :=
  fc._fcstat.get_all_products

/-- The records that `apply_all_rules` appends for the rules that are left:
for each rule, in order, the undefined source, the rule, and the set of the
atoms that `apply_rule` returned for the rule's own handle. -/
def apply_all_records (env : Env) : List RulePtr → ForwardChainer → List InferenceRecord
  | [], _ => []
  | rule :: rest, fc =>
    ⟨.UNDEFINED, rule, set_insert_range [] (apply_rule_handle env fc rule.get_handle).1⟩
      :: apply_all_records env rest (apply_all_rules_body env fc rule)

/-! ## Links (`AtomSpace/Link.cc`) -/

/-- A `Link` object of `Link.cc`: its type and its outgoing array. -/
structure Link where
  type : AtomType
  outgoing : List Handle
  deriving DecidableEq

/-- `getArity()`: the number of elements of the outgoing array, a C `int`. -/
def Link.getArity (l : Link) : Int := l.outgoing.length

/-- The loop `for (int i = start; i < getArity(); i++) if (outgoing[i] == handle)
return true;` followed by `return false;`: `i` is the index and `n` the number
of iterations that are left. -/
def Link.scan (l : Link) (handle : Handle) : Nat → Nat → Bool
  | _, 0 => false
  | i, n + 1 =>
    if l.outgoing.get? i = some handle then true else Link.scan l handle (i + 1) n

/-- `Link::isSource(Handle handle)`; `isAssignableFrom` is
`ClassServer::isAssignableFrom`.  The type code that the C++ formats into the
message of the exception is left out of the message. -/
def Link.isSource (isAssignableFrom : AtomType → AtomType → Bool) (l : Link)
    (handle : Handle) : Except Exception Bool :=
  if isAssignableFrom .ORDERED_LINK l.type then
    .ok (decide (l.getArity > 0) && decide (l.outgoing.get? 0 = some handle))
  else if isAssignableFrom .UNORDERED_LINK l.type then
    .ok (l.scan handle 0 l.outgoing.length)
  else
    .error (.InvalidParamException "Link::isSource(Handle) unknown link type")

/-- `Link::isSource(int i)`. -/
def Link.isSource_int (isAssignableFrom : AtomType → AtomType → Bool) (l : Link)
    (i : Int) : Except Exception Bool :=
  if i > l.getArity ∨ i < 0 then
    .error (.IndexErrorException "Link::isSource(int) invalid index argument")
  else if isAssignableFrom .ORDERED_LINK l.type then
    .ok (decide (i = 0))
  else if isAssignableFrom .UNORDERED_LINK l.type then
    .ok true
  else
    .error (.InvalidParamException "Link::isSource(int) unknown link type")

/-- `Link::isTarget(Handle handle)`. -/
def Link.isTarget (isAssignableFrom : AtomType → AtomType → Bool) (l : Link)
    (handle : Handle) : Except Exception Bool :=
  if isAssignableFrom .ORDERED_LINK l.type then
    .ok (l.scan handle 1 (l.outgoing.length - 1))
  else if isAssignableFrom .UNORDERED_LINK l.type then
    .ok (l.scan handle 0 l.outgoing.length)
  else
    .error (.InvalidParamException "Link::isTarget(Handle) unknown link type")

/-- `Link::isTarget(int i)`. -/
def Link.isTarget_int (isAssignableFrom : AtomType → AtomType → Bool) (l : Link)
    (i : Int) : Except Exception Bool :=
  if i > l.getArity ∨ i < 0 then
    .error (.IndexErrorException "Link::istarget(int) invalid index argument")
  else if isAssignableFrom .ORDERED_LINK l.type then
    .ok (decide (i ≠ 0))
  else if isAssignableFrom .UNORDERED_LINK l.type then
    .ok true
  else
    .error (.InvalidParamException "Link::isTarget(int) unkown link type")

/-- The loop `for (int i = 0; i < getArity(); i++) if (outgoing[i] !=
olink->outgoing[i]) return false;` of `Link::equals`, followed by `return true;`:
`i` is the index and `n` the number of iterations that are left. -/
def Link.equals_loop (l olink : Link) : Nat → Nat → Bool
  | _, 0 => true
  | i, n + 1 =>
    if l.outgoing.get? i ≠ olink.outgoing.get? i then false
    else Link.equals_loop l olink (i + 1) n

/-- `Link::equals(Atom* other)` for an `other` that is a link. -/
def Link.equals (l other : Link) : Bool :=
  if l.type ≠ other.type then false
  else if l.getArity ≠ other.getArity then false
  else l.equals_loop other 0 l.outgoing.length

/-- The loop `for (int i = 0; i < getArity(); i++) result = result ^ (((long)
outgoing[i]) << i);` of `Link::hashCode`, on the 64 bits of a `long`;
`handle_long` is the cast `(long)` of a handle.  A shift by 64 or more, which
C++ leaves undefined, shifts every bit out. -/
def Link.hashCode_loop (handle_long : Handle → Nat) (l : Link) : Nat → Nat → Nat → Nat
  | _, 0, result => result
  | i, n + 1, result =>
    Link.hashCode_loop handle_long l (i + 1) n
      (result ^^^ ((handle_long (l.outgoing.getD i .UNDEFINED) * 2 ^ i) % 2 ^ 64))

/-- `Link::hashCode()`; `type_code` is the number of a type.  The result is
the `long` cut to the 32 bits of an `int`. -/
def Link.hashCode (type_code : AtomType → Nat) (handle_long : Handle → Nat) (l : Link) : Int :=
  let result : Nat := (type_code l.type + l.outgoing.length * 2 ^ 8) % 2 ^ 64
  let result : Nat := Link.hashCode_loop handle_long l 0 l.outgoing.length result
  let low : Nat := result % 2 ^ 32
  if low < 2 ^ 31 then (low : Int) else (low : Int) - 2 ^ 32

/-! ## Notions of the specification -/

mutual
/-- The atom `v` occurs somewhere inside `p`: it is `p` itself or occurs inside
a member of the outgoing set of `p`. -/
def occurs_in (v : Handle) : Handle → Bool
  | .UNDEFINED => false
  | .node t n => decide (v = .node t n)
  | .link t o => decide (v = .link t o) || occurs_in_seq v o
/-- The sequence version of `occurs_in`. -/
def occurs_in_seq (v : Handle) : List Handle → Bool
  | [] => false
  | h :: hs => occurs_in v h || occurs_in_seq v hs
end

/-- The variable that a member of a variable declaration declares: the member
itself for a VariableNode, the first element for a TypedVariableLink. -/
def declared_variable : Handle → Option Handle
  | .node .VARIABLE_NODE n => some (.node .VARIABLE_NODE n)
  | .link .TYPED_VARIABLE_LINK (v :: _) => some v
  | _ => none

/-- The declared variable of the member `m` occurs as a VariableNode inside
the pattern `p`. -/
def declaration_occurs (p m : Handle) : Bool :=
  match declared_variable m with
  | some v => v.isVariableNode && occurs_in v p
  | none => false

/-- The draw that the sampler serves at the `i`-th tournament of a call of
`choose_source` started in state `fc`. -/
def source_draw (env : Env) (fc : ForwardChainer) (i : Nat) : Handle :=
  (tournament_select env.pick_source (fc.draws + i) (tournament_elem env fc)).getD .UNDEFINED

/-- Both source sets of `fc` are contained in those of `fc2`. -/
def sources_grow (fc fc2 : ForwardChainer) : Prop :=
  fc._potential_sources ⊆ fc2._potential_sources
  ∧ fc._selected_sources ⊆ fc2._selected_sources

/-- Some term of the implicant sequence of `r` unifies with the source. -/
def rule_unifies (env : Env) (source : Handle) (r : RulePtr) : Prop :=
  ∃ t, t ∈ r.get_implicant_seq ∧ unify env source t r = true

/-- The state `fc2` differs from `fc` at most in the two fact stores. -/
def same_but_stores (fc fc2 : ForwardChainer) : Prop :=
  ∃ a f, fc2 = { fc with _as := a, _focus_set_as := f }

/-- The children of the body of a derived rule: the outgoing set of the body
when it is an `AND_LINK` or `OR_LINK`, the single body otherwise. -/
def body_children (body : Handle) : HandleSeq :=
  if body.getType = .AND_LINK ∨ body.getType = .OR_LINK then body.getOutgoingSet else [body]

/-- The child `c` fails the existence gate of the fully grounded regime: the
lookup `get_atom` in the global store yields the undefined handle or, when a
focus set is searched, the lookup in the focus-set store does. -/
def child_absent (fc : ForwardChainer) (c : Handle) : Prop :=
  fc._as.get_atom c = .UNDEFINED
  ∨ (fc._search_focus_set = true ∧ fc._focus_set_as.get_atom c = .UNDEFINED)

/-- The handle `h` is at position `i` of the outgoing set of `l`. -/
def at_position (l : Link) (h : Handle) (i : Nat) : Prop :=
  i < l.outgoing.length ∧ l.outgoing.get? i = some h

/-- The grounding that replaces the atom `x`: the value of `x` in the grounding
map `m` when `x` is both in the variable set `vars` and a key of `m`. -/
def grounding_of (vars : UnorderedHandleSet) (m : HandleMap) (x : Handle) : Option Handle :=
  if x ∈ vars then m.lookup x else none

mutual
/-- The atom `p` with every occurrence of each variable that is both in `vars`
and a key of `m` replaced by its grounding, and every other atom left as it
is. -/
def replace_vars (vars : UnorderedHandleSet) (m : HandleMap) : Handle → Handle
  | .UNDEFINED => .UNDEFINED
  | .node t n =>
    match grounding_of vars m (.node t n) with
    | some g => g
    | none => .node t n
  | .link t o =>
    match grounding_of vars m (.link t o) with
    | some g => g
    | none => .link t (replace_vars_seq vars m o)
/-- The sequence version of `replace_vars`. -/
def replace_vars_seq (vars : UnorderedHandleSet) (m : HandleMap) : List Handle → List Handle
  | [] => []
  | h :: hs => replace_vars vars m h :: replace_vars_seq vars m hs
end

/-- The fact store that corresponds to the focus-set mode of the chainer: the
focus-set store when a focus set is searched, the global store otherwise. -/
def result_store (fc : ForwardChainer) : AtomSpace :=
  if fc._search_focus_set then fc._focus_set_as else fc._as

/-- The atom `x` of the record `r` was returned by a call of
`apply_rule(Handle)` on the handle of the rule of `r` or on one of the rules
derived from it for the source of `r`. -/
def returned_by_apply_rule (env : Env) (r : InferenceRecord) (x : Handle) : Prop :=
  ∃ (fc : ForwardChainer) (rhandle : Handle),
    (rhandle = r.rule.get_handle ∨ rhandle ∈ derive_rules env r.hsource r.rule)
    ∧ x ∈ (apply_rule_handle env fc rhandle).1

/-- Every recorded product was returned by `apply_rule(Handle)` and, when it is
a defined handle, is present in the store of the chainer's focus-set mode. -/
def records_closed (env : Env) (fc : ForwardChainer) : Prop :=
  ∀ r, r ∈ fc._fcstat.records → ∀ x, x ∈ r.product →
    returned_by_apply_rule env r x
    ∧ (x ≠ .UNDEFINED → (result_store fc).contains x = true)

/-- The states that construction, `do_step`, `apply_all_rules` and `do_chain`
can reach. -/
inductive reachable (env : Env) : ForwardChainer → Prop
  | construct (as : AtomSpace) (cr : UREConfigReader) (h : Handle) (focus_set : HandleSeq)
      (fc : ForwardChainer) :
      ForwardChainer.new as cr h focus_set = .ok fc → reachable env fc
  | step (fc : ForwardChainer) : reachable env fc → reachable env (do_step env fc)
  | all_rules (fc : ForwardChainer) :
      reachable env fc → reachable env (apply_all_rules env fc)
  | chain (fc : ForwardChainer) (fuel : Nat) (r : ForwardChainer × Nat) :
      reachable env fc → do_chain env fuel fc = some r → reachable env r.1

/-- The state in which `do_step` has chosen its source and its rule: after
`choose_source`, the assignment to `_cur_source` and `choose_rule`. -/
def selection_state (env : Env) (fc : ForwardChainer) : ForwardChainer :=
  (choose_rule env
    { (choose_source env fc).2 with _cur_source := (choose_source env fc).1 }
    (choose_source env fc).1).2

/-- The rule that `choose_rule` returns in `do_step` for the chosen source. -/
def chosen_rule (env : Env) (fc : ForwardChainer) : Option RulePtr :=
  (choose_rule env
    { (choose_source env fc).2 with _cur_source := (choose_source env fc).1 }
    (choose_source env fc).1).1

/-- The state `fc2` differs from `fc` at most in the selected-sources set, the
current source and the state of the random generator. -/
def same_but_selection (fc fc2 : ForwardChainer) : Prop :=
  ∃ s c d, fc2 = { fc with _selected_sources := s, _cur_source := c, draws := d }

/-- The members that a step never touches are the same in `fc` and `fc2`: the
rule list, the maximum iteration count, the configuration, the focus set and
the three mode flags. -/
def same_settings (fc fc2 : ForwardChainer) : Prop :=
  fc2._rules = fc._rules
  ∧ fc2._max_iteration = fc._max_iteration
  ∧ fc2._configReader = fc._configReader
  ∧ fc2._focus_set = fc._focus_set
  ∧ fc2._search_in_af = fc._search_in_af
  ∧ fc2._search_focus_set = fc._search_focus_set
  ∧ fc2._ts_mode = fc._ts_mode

/-- The terms on which one round of `choose_rule` calls `unify` for the rule
`temp`: the `for (Handle term : hs)` loop with its `break`, over the terms
that are left. -/
def unify_round (env : Env) (hsource : Handle) (temp : RulePtr) : List Handle → List Handle
  | [] => []
  | term :: rest =>
    if unify env hsource term temp then [term]
    else term :: unify_round env hsource temp rest

/-- The rounds that the loop of `choose_rule` runs: for each tournament
selection, in order, the selected rule and the terms on which `unify` was
called for it. -/
def choose_rule_rounds (env : Env) (hsource : Handle) :
    Nat → RuleMap → Nat → List (RulePtr × List Handle)
  | 0, _, _ => []
  | fuel + 1, rule_weight, draws =>
    match tournament_select env.pick_rule draws rule_weight with
    | none => []
    | some temp =>
      if temp.get_implicant_seq.any (fun term => unify env hsource term temp) then
        [(temp, unify_round env hsource temp temp.get_implicant_seq)]
      else
        (temp, unify_round env hsource temp temp.get_implicant_seq)
          :: choose_rule_rounds env hsource fuel (map_erase rule_weight temp) (draws + 1)

/-! ## Concrete collaborators and states used to evaluate the code -/

/-- A collaborator set whose pattern matcher never finds a match: `bindlink`
answers the empty SetLink and the callbacks collect nothing; the sampler always
takes the first key; debug logging is off. -/
def env_no_match : Env :=
  { isA := fun _ _ => false
    tv_fitness := fun _ => 0
    getSTI := fun _ => 0
    pick_source := fun _ _ => 0
    pick_rule := fun _ _ => 0
    bindlink := fun _ _ => .link .SET_LINK []
    imply_VarGroundingPMCB := fun _ _ => ([], [])
    imply_FocusSetPMCB := fun _ _ _ => []
    instantiate := fun _ h => h
    is_debug_enabled := false }

/-- The ConceptNode-like atom C (type code 3 of the remaining codes). -/
def atom_C : Handle := .node (.other 3) "C"

/-- The variable `$x`. -/
def var_x : Handle := .node .VARIABLE_NODE "$x"

/-- The variable `$y`. -/
def var_y : Handle := .node .VARIABLE_NODE "$y"

/-- A rule with body `Implication($x, $y)` and implicand `$y`. -/
def rule_implication : Rule :=
  { name := "implication-elimination"
    vardecl := .link .VARIABLE_LIST [var_x, var_y]
    body := .link (.other 7) [var_x, var_y]
    implicand := var_y
    weight := 1 }

/-- The chainer members after `init` with the single source C, no focus set,
the rule base made of `rule_implication`, and `maximum_iterations` 1. -/
def fc_source_C : ForwardChainer :=
  { _as := ⟨[atom_C], []⟩
    _configReader := ⟨[rule_implication], 1, false⟩
    _focus_set_as := AtomSpace.empty
    _focus_set := []
    _search_in_af := false
    _search_focus_set := false
    _ts_mode := .TV_FITNESS_BASED
    _potential_sources := [atom_C]
    _selected_sources := []
    _cur_source := .UNDEFINED
    _rules := [⟨0, rule_implication⟩]
    _iteration := 0
    _max_iteration := 1
    _fcstat := ⟨[]⟩
    draws := 0 }

/-- The atom A. -/
def atom_A : Handle := .node (.other 3) "A"

/-- The atom B. -/
def atom_B : Handle := .node (.other 3) "B"

/-- A chainer state with potential sources A and B of which A was already
selected. -/
def fc_sources_AB : ForwardChainer :=
  { fc_source_C with
    _as := ⟨[atom_A, atom_B], []⟩
    _potential_sources := [atom_A, atom_B]
    _selected_sources := [atom_A] }

/-- A collaborator set like `env_no_match` whose sampler takes the second key
at its first draw. -/
def env_second_first : Env :=
  { env_no_match with pick_source := fun n _ => if n = 0 then 1 else 0 }

/-- The atom D. -/
def atom_D : Handle := .node (.other 3) "D"

/-- The link `Implication(a, b)` (type code 7 of the remaining codes). -/
def implication (a b : Handle) : Handle := .link (.other 7) [a, b]

/-- A collaborator set whose pattern matcher always finds the one product B,
with debug logging off. -/
def env_product_B : Env :=
  { env_no_match with
    bindlink := fun _ _ => .link .SET_LINK [atom_B]
    imply_FocusSetPMCB := fun _ _ _ => [atom_B] }

/-- The collaborators of `env_product_B` with the chainer logger at debug level. -/
def env_debug : Env :=
  { env_product_B with is_debug_enabled := true }

/-- A chainer state without potential sources. -/
def fc_no_sources : ForwardChainer :=
  { fc_source_C with _potential_sources := [] }

/-- The chainer members after `init` with source A and the focus set made of A
and `Implication(A, B)`, over a global store that holds A, B,
`Implication(A, B)` and `Implication(A, D)`. -/
def fc_focus_set : ForwardChainer :=
  { fc_source_C with
    _as := ⟨[atom_A, atom_B, implication atom_A atom_B, atom_D, implication atom_A atom_D], []⟩
    _focus_set_as := ⟨[atom_A, atom_B, implication atom_A atom_B], []⟩
    _focus_set := [atom_A, implication atom_A atom_B]
    _search_focus_set := true
    _potential_sources := [atom_A] }

/-- A derived rule that still holds the variable `$y`:
`BindLink(VariableList($y), And(Implication(A, $y), A), $y)`. -/
def derived_rule_A : Handle :=
  .link .BIND_LINK
    [.link .VARIABLE_LIST [var_y], .link .AND_LINK [implication atom_A var_y, atom_A], var_y]

/-- A collaborator set whose pattern matcher reports A as the only match. -/
def env_match_A : Env :=
  { env_no_match with bindlink := fun _ _ => .link .SET_LINK [atom_A] }

/-- A collaborator set like `env_no_match` whose sampler takes the first key
at its first two draws and the second key at its third draw. -/
def env_third_second : Env :=
  { env_no_match with pick_source := fun n _ => if n = 2 then 1 else 0 }

/-- A class server in which the ordered links are `ORDERED_LINK` itself and the
type code 7, and the unordered links are `UNORDERED_LINK`, `SET_LINK`,
`AND_LINK` and `OR_LINK`. -/
def class_server_small (ancestor t : AtomType) : Bool :=
  match ancestor with
  | .ORDERED_LINK => decide (t = .ORDERED_LINK ∨ t = .other 7)
  | .UNORDERED_LINK =>
    decide (t = .UNORDERED_LINK ∨ t = .SET_LINK ∨ t = .AND_LINK ∨ t = .OR_LINK)
  | _ => decide (ancestor = t)

/-- The ordered link `Implication(A, B)` as a `Link` object. -/
def link_ordered_AB : Link := ⟨.other 7, [atom_A, atom_B]⟩

/-- The unordered link `Set(A, B)` as a `Link` object. -/
def link_unordered_AB : Link := ⟨.SET_LINK, [atom_A, atom_B]⟩

/-- The link `P(a)` (type code 8 of the remaining codes). -/
def pred_P (a : Handle) : Handle := .link (.other 8) [a]

/-- The link `Q(a, b)` (type code 9 of the remaining codes). -/
def pred_Q (a b : Handle) : Handle := .link (.other 9) [a, b]

/-- The link `R(a, b)` (type code 10 of the remaining codes). -/
def pred_R (a b : Handle) : Handle := .link (.other 10) [a, b]

/-- A collaborator set whose pattern matcher unifies `Implication($x, $y)` with
the source A by binding `$x` to A, and produces D from every derived rule. -/
def env_derive : Env :=
  { env_no_match with
    bindlink := fun _ h =>
      match BindLinkCast h with
      | some (_, b, i) => if b = i then .link .SET_LINK [atom_A] else .link .SET_LINK [atom_D]
      | none => .link .SET_LINK []
    imply_VarGroundingPMCB := fun _ _ => ([[(var_x, atom_A)]], [[(var_x, atom_A)]])
    imply_FocusSetPMCB := fun _ _ _ => [atom_D] }

/-- The chainer that construction yields over the global store holding A and
B, with the rule base made of `rule_implication`, `maximum_iterations` 1, the
initial source A and no focus set. -/
def fc_constructed_A : ForwardChainer :=
  { fc_source_C with
    _as := ⟨[atom_A, atom_B], []⟩
    _potential_sources := [atom_A] }

/-- The type node of a type restriction (type code 11 of the remaining codes). -/
def type_concept : Handle := .node (.other 11) "ConceptNode"

/-- A rule with the variable list `($x, $y)`, body `Q($x, $y)` and implicand
`R($x, $y)`. -/
def rule_Q : Rule :=
  { name := "q-to-r"
    vardecl := .link .VARIABLE_LIST [var_x, var_y]
    body := pred_Q var_x var_y
    implicand := pred_R var_x var_y
    weight := 1 }

/-- A collaborator set whose pattern matcher reports one match in which both
`$x` and `$y` are grounded by A. -/
def env_two_groundings : Env :=
  { env_no_match with
    imply_VarGroundingPMCB := fun _ _ =>
      ([[(var_x, atom_A), (var_y, atom_A)]], [[(var_x, atom_A), (var_y, atom_A)]]) }

/-! ## Sets and maps: lemmas -/

theorem mem_set_insert (s : UnorderedHandleSet) (h x : Handle) :
    x ∈ set_insert s h ↔ x ∈ s ∨ x = h := by
  unfold set_insert
  split
  · constructor
    · intro hx; exact Or.inl hx
    · rintro (hx | rfl)
      · exact hx
      · assumption
  · simp

theorem mem_set_insert_range (hs : HandleSeq) (s : UnorderedHandleSet) (x : Handle) :
    x ∈ set_insert_range s hs ↔ x ∈ s ∨ x ∈ hs := by
  unfold set_insert_range
  induction hs generalizing s with
  | nil => simp
  | cons a rest ih =>
    simp only [List.foldl_cons, List.mem_cons]
    rw [ih, mem_set_insert]
    tauto

theorem subset_set_insert (s : UnorderedHandleSet) (h : Handle) : s ⊆ set_insert s h :=
  fun x hx => (mem_set_insert s h x).2 (Or.inl hx)

theorem subset_set_insert_range (s : UnorderedHandleSet) (hs : HandleSeq) :
    s ⊆ set_insert_range s hs :=
  fun x hx => (mem_set_insert_range hs s x).2 (Or.inl hx)

theorem mem_keys_map_set {K V : Type} [DecidableEq K] (m : List (K × V)) (k : K) (v : V)
    (x : K) : x ∈ (map_set m k v).map Prod.fst ↔ x ∈ m.map Prod.fst ∨ x = k := by
  unfold map_set
  split
  · rename_i hany
    simp only [List.any_eq_true, decide_eq_true_eq] at hany
    obtain ⟨p, hp, hpk⟩ := hany
    simp only [List.mem_map, Prod.exists, exists_and_right, exists_eq_right]
    constructor
    · rintro ⟨w, a, b, hab, hw⟩
      by_cases ha : a = k
      · simp [ha] at hw
        right; exact hw.1.symm
      · simp [ha] at hw
        left; exact ⟨w, by rw [← hw.1, ← hw.2]; exact hab⟩
    · rintro (⟨w, hw⟩ | rfl)
      · by_cases hxk : x = k
        · exact ⟨v, x, w, hw, by simp [hxk]⟩
        · exact ⟨w, x, w, hw, by simp [hxk]⟩
      · exact ⟨v, p.1, p.2, hp, by simp [hpk]⟩
  · simp

theorem mem_keys_foldl_map_set {K V : Type} [DecidableEq K] (f : K → V) (ks : List K)
    (m : List (K × V)) (x : K) :
    x ∈ (ks.foldl (fun m k => map_set m k (f k)) m).map Prod.fst
      ↔ x ∈ m.map Prod.fst ∨ x ∈ ks := by
  induction ks generalizing m with
  | nil => simp
  | cons a rest ih =>
    simp only [List.foldl_cons, List.mem_cons]
    rw [ih, mem_keys_map_set]
    tauto

theorem mem_keys_map_erase {K V : Type} [DecidableEq K] (m : List (K × V)) (k x : K) :
    x ∈ (map_erase m k).map Prod.fst ↔ x ∈ m.map Prod.fst ∧ x ≠ k := by
  unfold map_erase
  constructor
  · intro hx
    obtain ⟨p, hp, hpx⟩ := List.mem_map.1 hx
    have hp2 := List.mem_filter.1 hp
    refine ⟨List.mem_map.2 ⟨p, hp2.1, hpx⟩, ?_⟩
    have := hp2.2
    simp only [decide_eq_true_eq] at this
    rw [← hpx]; exact this
  · rintro ⟨hx, hne⟩
    obtain ⟨p, hp, hpx⟩ := List.mem_map.1 hx
    refine List.mem_map.2 ⟨p, List.mem_filter.2 ⟨hp, ?_⟩, hpx⟩
    simp only [decide_eq_true_eq]
    rw [hpx]; exact hne

theorem length_map_erase_lt {K V : Type} [DecidableEq K] (m : List (K × V)) (k : K)
    (hk : k ∈ m.map Prod.fst) : (map_erase m k).length < m.length := by
  unfold map_erase
  obtain ⟨p, hp, hpk⟩ := List.mem_map.1 hk
  apply List.length_filter_lt_length_iff_exists.2
  exact ⟨p, hp, by simp [hpk]⟩

theorem tournament_select_mem {K : Type} (pick : Nat → List (K × Weight) → Nat) (draw : Nat)
    (m : List (K × Weight)) (k : K) (h : tournament_select pick draw m = some k) :
    k ∈ m.map Prod.fst := by
  unfold tournament_select at h
  obtain ⟨p, hp, hpk⟩ := Option.map_eq_some'.1 h
  exact List.mem_map.2 ⟨p, List.get?_mem hp, hpk⟩

theorem tournament_select_none {K : Type} (pick : Nat → List (K × Weight) → Nat) (draw : Nat)
    (m : List (K × Weight)) (h : tournament_select pick draw m = none) : m = [] := by
  unfold tournament_select at h
  by_contra hm
  have hlen : 0 < m.length := List.length_pos.2 hm
  have hlt : pick draw m % m.length < m.length := Nat.mod_lt _ hlen
  simp only [Option.map_eq_none'] at h
  rw [List.get?_eq_none] at h
  omega

/-! ## The step counter -/

theorem unify_env_no_match (source term : Handle) (rule : RulePtr) :
    unify env_no_match source term rule = false := by
  unfold unify
  split
  · rfl
  · simp [env_no_match, Handle.getOutgoingSet]

theorem choose_rule_loop_env_no_match (hsource : Handle) (fuel : Nat) (m : RuleMap)
    (draws : Nat) : (choose_rule_loop env_no_match hsource fuel m draws).1 = none := by
  induction fuel generalizing m draws with
  | zero => rfl
  | succ n ih =>
    unfold choose_rule_loop
    cases tournament_select env_no_match.pick_rule draws m with
    | none => rfl
    | some temp =>
      simp only [unify_env_no_match, List.any_eq_true, Bool.false_eq_true, and_false,
        exists_false, if_false]
      exact ih _ _

theorem choose_source_loop_counters (env : Env) (m : List (Handle × Weight)) (n : Nat)
    (fc : ForwardChainer) :
    (choose_source_loop env m n fc).2._iteration = fc._iteration
    ∧ (choose_source_loop env m n fc).2._max_iteration = fc._max_iteration := by
  induction n generalizing fc with
  | zero => exact ⟨rfl, rfl⟩
  | succ k ih =>
    unfold choose_source_loop
    simp only
    split
    · exact ih _
    · exact ⟨rfl, rfl⟩

theorem choose_source_counters (env : Env) (fc : ForwardChainer) :
    (choose_source env fc).2._iteration = fc._iteration
    ∧ (choose_source env fc).2._max_iteration = fc._max_iteration := by
  unfold choose_source
  simp only
  split
  · exact choose_source_loop_counters env _ _ fc
  · exact choose_source_loop_counters env _ _ fc

theorem do_step_env_no_match_counters (fc : ForwardChainer) :
    (do_step env_no_match fc)._iteration = fc._iteration
    ∧ (do_step env_no_match fc)._max_iteration = fc._max_iteration := by
  unfold do_step
  simp only [choose_rule, choose_rule_loop_env_no_match]
  exact choose_source_counters env_no_match fc

theorem do_chain_loop_env_no_match (fuel : Nat) (fc : ForwardChainer)
    (h : fc._iteration < fc._max_iteration) : do_chain_loop env_no_match fuel fc = none := by
  induction fuel generalizing fc with
  | zero =>
    unfold do_chain_loop termination
    simp [not_le.2 h]
  | succ n ih =>
    unfold do_chain_loop termination
    have hs := do_step_env_no_match_counters fc
    have h2 : (do_step env_no_match fc)._iteration < (do_step env_no_match fc)._max_iteration := by
      rw [hs.1, hs.2]; exact h
    simp [not_le.2 h, ih _ h2]

/-- C1 (the code at the failing input): the chainer holds the single potential
source C, iteration count 0 and maximum iteration count 1, and its only rule
does not unify with C.  Every `do_step` returns at `if (not rule)` before
`_iteration++`, so however many invocations are allowed, the loop of
`do_chain` is still running: it does not terminate after one step. -/
theorem do_chain_no_rule_never_terminates :
    fc_source_C._potential_sources = [atom_C]
    ∧ fc_source_C._iteration = 0
    ∧ fc_source_C._max_iteration = 1
    ∧ ∀ fuel : Nat, do_chain env_no_match fuel fc_source_C = none := by
  refine ⟨rfl, rfl, rfl, ?_⟩
  intro fuel
  have h : fc_source_C._iteration < fc_source_C._max_iteration := by decide
  have := do_chain_loop_env_no_match fuel fc_source_C h
  unfold do_chain
  simpa [fc_source_C] using this

/-- C2 (the code at the failing input): with the potential source C and a rule
that does not unify with it, `choose_rule` returns no rule and one call of
`do_step` leaves the iteration count at 0, not at 1. -/
theorem do_step_no_rule_keeps_iteration :
    fc_source_C._potential_sources ≠ []
    ∧ (choose_rule env_no_match
        { (choose_source env_no_match fc_source_C).2 with
          _cur_source := (choose_source env_no_match fc_source_C).1 } atom_C).1 = none
    ∧ (choose_source env_no_match fc_source_C).1 = atom_C
    ∧ fc_source_C._iteration = 0
    ∧ (do_step env_no_match fc_source_C)._iteration = 0
    ∧ (do_step env_no_match fc_source_C)._potential_sources = [atom_C] := by
  refine ⟨by decide, ?_, ?_, rfl, ?_, ?_⟩
  · simp [choose_rule, choose_rule_loop_env_no_match]
  · decide
  · decide
  · decide

/-! ## Source selection -/

theorem mem_keys_tournament_elem (env : Env) (fc : ForwardChainer) (x : Handle) :
    x ∈ (tournament_elem env fc).map Prod.fst ↔ x ∈ fc._potential_sources := by
  unfold tournament_elem
  split
  · rw [mem_keys_foldl_map_set (fun s => env.tv_fitness s)]; simp
  · rw [mem_keys_foldl_map_set (fun s => env.getSTI s)]; simp

theorem tournament_select_getD_mem (pick : Nat → List (Handle × Weight) → Nat) (draw : Nat)
    (m : List (Handle × Weight)) (hm : m ≠ []) :
    (tournament_select pick draw m).getD .UNDEFINED ∈ m.map Prod.fst := by
  cases h : tournament_select pick draw m with
  | none => exact absurd (tournament_select_none pick draw m h) hm
  | some k => exact tournament_select_mem pick draw m k h

theorem choose_source_loop_novel (env : Env) (m : List (Handle × Weight)) (hm : m ≠ [])
    (n : Nat) (fc : ForwardChainer)
    (hdraw : ∃ i, i < n ∧
      (tournament_select env.pick_source (fc.draws + i) m).getD .UNDEFINED
        ∉ fc._selected_sources) :
    (choose_source_loop env m n fc).1 ∈ m.map Prod.fst
    ∧ (choose_source_loop env m n fc).1 ∉ fc._selected_sources := by
  induction n generalizing fc with
  | zero =>
    obtain ⟨i, hi, _⟩ := hdraw
    omega
  | succ k ih =>
    unfold choose_source_loop
    simp only
    split
    · rename_i hsel
      simp only [decide_eq_true_eq] at hsel
      obtain ⟨i, hi, hni⟩ := hdraw
      have hi0 : i ≠ 0 := by
        rintro rfl
        exact hni (by simpa using hsel)
      have := ih { fc with draws := fc.draws + 1 } ⟨i - 1, by omega, by
        have e : fc.draws + 1 + (i - 1) = fc.draws + i := by omega
        simp only [e]
        exact hni⟩
      exact this
    · rename_i hsel
      simp only [decide_eq_true_eq] at hsel
      exact ⟨tournament_select_getD_mem _ _ m hm, hsel⟩

/-- C3 (counterexample): potential sources A and B, A already selected, and a
sampler that returns the key A at every draw.  B was never selected, yet both
rounds of the novelty loop draw A and the closing tournament returns A, a
source that was in the selected-sources set before the call. -/
theorem choose_source_returns_selected :
    fc_sources_AB._potential_sources ≠ []
    ∧ (∃ s, s ∈ fc_sources_AB._potential_sources ∧ s ∉ fc_sources_AB._selected_sources)
    ∧ (∀ n m, m ≠ [] →
        (tournament_select env_no_match.pick_source n m).getD .UNDEFINED ∈ m.map Prod.fst)
    ∧ (choose_source env_no_match fc_sources_AB).1 ∈ fc_sources_AB._selected_sources := by
  refine ⟨by decide, ⟨atom_B, by decide, by decide⟩, ?_, by decide⟩
  intro n m hm
  exact tournament_select_getD_mem _ n m hm

/-- C3 (amended): when the potential sources are defined handles and at least
one of the first `|candidates|` tournament draws of the call is not in the
selected-sources set, `choose_source` returns a potential source that was not
in the selected-sources set before the call. -/
theorem choose_source_novel_when_drawn (env : Env) (fc : ForwardChainer)
    (hdef : Handle.UNDEFINED ∉ fc._potential_sources)
    (hdraw : ∃ i, i < (tournament_elem env fc).length
      ∧ source_draw env fc i ∉ fc._selected_sources) :
    (choose_source env fc).1 ∈ fc._potential_sources
    ∧ (choose_source env fc).1 ∉ fc._selected_sources := by
  have hm : tournament_elem env fc ≠ [] := by
    obtain ⟨i, hi, _⟩ := hdraw
    intro h
    rw [h] at hi
    simp at hi
  have hdef2 : Handle.UNDEFINED ∉ (tournament_elem env fc).map Prod.fst := by
    rw [mem_keys_tournament_elem]; exact hdef
  have hl := choose_source_loop_novel env (tournament_elem env fc) hm
    (tournament_elem env fc).length fc hdraw
  have hne : (choose_source_loop env (tournament_elem env fc)
      (tournament_elem env fc).length fc).1 ≠ .UNDEFINED := by
    intro h
    rw [h] at hl
    exact hdef2 hl.1
  unfold choose_source
  simp only [hne, if_false]
  exact ⟨(mem_keys_tournament_elem env fc _).1 hl.1, hl.2⟩

/-- C3 (amended), at a concrete input: potential sources A and B, A selected
before, and a sampler whose first draw is B. -/
theorem choose_source_novel_when_drawn_witness :
    Handle.UNDEFINED ∉ fc_sources_AB._potential_sources
    ∧ (∃ i, i < (tournament_elem env_second_first fc_sources_AB).length
      ∧ source_draw env_second_first fc_sources_AB i ∉ fc_sources_AB._selected_sources)
    ∧ (choose_source env_second_first fc_sources_AB).1 = atom_B
    ∧ (choose_source env_second_first fc_sources_AB).1 ∈ fc_sources_AB._potential_sources
    ∧ (choose_source env_second_first fc_sources_AB).1 ∉ fc_sources_AB._selected_sources :=
  ⟨by decide, ⟨0, by decide, by decide⟩, by decide,
    choose_source_novel_when_drawn env_second_first fc_sources_AB (by decide)
      ⟨0, by decide, by decide⟩⟩

/-! ## Variable search and sub-variable-lists -/

mutual
theorem mem_find_rec : ∀ (p x : Handle),
    x ∈ find_rec p ↔ (x.isVariableNode = true ∧ occurs_in x p = true)
  | .UNDEFINED, x => by simp [find_rec, occurs_in]
  | .node t n, x => by
    unfold find_rec occurs_in
    by_cases ht : t = .VARIABLE_NODE
    · subst ht
      simp only [if_true, List.mem_singleton, decide_eq_true_eq]
      constructor
      · rintro rfl; exact ⟨rfl, rfl⟩
      · rintro ⟨_, h⟩; exact h
    · simp only [ht, if_false, List.not_mem_nil, decide_eq_true_eq, false_iff, not_and]
      intro hv hx
      subst hx
      cases t <;> simp [Handle.isVariableNode] at hv ht
  | .link t o, x => by
    unfold find_rec occurs_in
    rw [mem_find_rec_seq o x]
    simp only [Bool.or_eq_true, decide_eq_true_eq]
    constructor
    · rintro ⟨hv, ho⟩; exact ⟨hv, Or.inr ho⟩
    · rintro ⟨hv, hx | ho⟩
      · subst hx; simp [Handle.isVariableNode] at hv
      · exact ⟨hv, ho⟩
theorem mem_find_rec_seq : ∀ (ps : List Handle) (x : Handle),
    x ∈ find_rec_seq ps ↔ (x.isVariableNode = true ∧ occurs_in_seq x ps = true)
  | [], x => by simp [find_rec_seq, occurs_in_seq]
  | p :: ps, x => by
    unfold find_rec_seq occurs_in_seq
    rw [List.mem_append, mem_find_rec p x, mem_find_rec_seq ps x]
    simp only [Bool.or_eq_true]
    tauto
end

theorem mem_varset_search_set (p x : Handle) :
    x ∈ (FindAtoms.new.search_set p).varset
      ↔ (x.isVariableNode = true ∧ occurs_in x p = true) := by
  unfold FindAtoms.search_set FindAtoms.new
  simp only [mem_set_insert_range, List.not_mem_nil, false_or]
  exact mem_find_rec p x

theorem gen_sub_varlist_keeps (p m : Handle) :
    ((decide (AtomType.VARIABLE_NODE = m.getType)
        && decide (m ∈ (FindAtoms.new.search_set p).varset))
      || (decide (AtomType.TYPED_VARIABLE_LINK = m.getType)
        && (match m.getOutgoingSet.head? with
            | some v => decide (v ∈ (FindAtoms.new.search_set p).varset)
            | none => false))) = declaration_occurs p m := by
  have key : ∀ v : Handle, decide (v ∈ (FindAtoms.new.search_set p).varset)
      = (v.isVariableNode && occurs_in v p) := by
    intro v
    rw [Bool.eq_iff_iff]
    simp only [decide_eq_true_eq, Bool.and_eq_true]
    exact mem_varset_search_set p v
  cases m with
  | UNDEFINED => simp [Handle.getType, Handle.getOutgoingSet, declaration_occurs, declared_variable]
  | node t n =>
    by_cases ht : t = .VARIABLE_NODE
    · subst ht
      simp [Handle.getType, Handle.getOutgoingSet, declaration_occurs, declared_variable, key]
    · have ht2 : ¬ AtomType.VARIABLE_NODE = t := fun e => ht e.symm
      have hv : (Handle.node t n).isVariableNode = false := by
        cases t <;> simp [Handle.isVariableNode] at ht ⊢
      have hd : declared_variable (Handle.node t n) = none := by
        cases t <;> simp [declared_variable] at ht ⊢
      simp [Handle.getType, Handle.getOutgoingSet, declaration_occurs, hd, ht2]
  | link t o =>
    have hv : (Handle.link t o).isVariableNode = false := rfl
    by_cases ht : t = .TYPED_VARIABLE_LINK
    · subst ht
      cases o with
      | nil => simp [Handle.getType, Handle.getOutgoingSet, declaration_occurs, declared_variable]
      | cons v rest =>
        simp [Handle.getType, Handle.getOutgoingSet, declaration_occurs, declared_variable, key]
    · have ht2 : ¬ AtomType.TYPED_VARIABLE_LINK = t := fun e => ht e.symm
      have hd : declared_variable (Handle.link t o) = none := by
        cases t <;> simp [declared_variable] at ht ⊢
      simp [Handle.getType, declaration_occurs, hd, ht2, key, hv]

/-- C4: for every pattern `p` and every variable declaration that is a link
with members `d`, `gen_sub_varlist` returns the variable list whose outgoing
sequence is exactly the subsequence of `d`, in the order of `d`, of the members
whose declared variable (the member itself for a VariableNode, the first
element for a TypedVariableLink) occurs as a VariableNode somewhere inside `p`. -/
theorem gen_sub_varlist_sound (p : Handle) (t : AtomType) (d : HandleSeq) :
    gen_sub_varlist p (.link t d)
      = .link .VARIABLE_LIST (d.filter (fun m => declaration_occurs p m))
    ∧ (gen_sub_varlist p (.link t d)).getOutgoingSet.Sublist d
    ∧ ∀ m, m ∈ (gen_sub_varlist p (.link t d)).getOutgoingSet
        ↔ (m ∈ d ∧ ∃ v, declared_variable m = some v ∧ v.isVariableNode = true
            ∧ occurs_in v p = true) := by
  have h1 : gen_sub_varlist p (.link t d)
      = .link .VARIABLE_LIST (d.filter (fun m => declaration_occurs p m)) := by
    unfold gen_sub_varlist
    simp only [Handle.isLink, if_true, Handle.getOutgoingSet]
    congr 1
    apply List.filter_congr
    intro m _
    exact gen_sub_varlist_keeps p m
  refine ⟨h1, ?_, ?_⟩
  · rw [h1]; exact List.filter_sublist _
  · intro m
    rw [h1]
    simp only [Handle.getOutgoingSet, List.mem_filter, declaration_occurs]
    constructor
    · rintro ⟨hm, hocc⟩
      refine ⟨hm, ?_⟩
      cases hd : declared_variable m with
      | none => simp [hd] at hocc
      | some v =>
        simp only [hd, Bool.and_eq_true] at hocc
        exact ⟨v, rfl, hocc.1, hocc.2⟩
    · rintro ⟨hm, v, hd, hv, ho⟩
      exact ⟨hm, by simp [hd, hv, ho]⟩

/-! ## The term-validity filter -/

theorem is_valid_implicant_false (env : Env) (term : Handle)
    (h : term.getType = .NOT_LINK ∨ env.isA term.getType .VIRTUAL_LINK = true
      ∨ ∀ v : Handle, v.isVariableNode = true → occurs_in v term = false) :
    is_valid_implicant env term = false := by
  unfold is_valid_implicant
  rcases h with h | h | h
  · simp [h]
  · simp [h]
  · have hnil : find_rec term = [] := by
      apply List.eq_nil_iff_forall_not_mem.2
      intro x hx
      have := (mem_find_rec term x).1 hx
      rw [h x this.1] at this
      exact absurd this.2 (by simp)
    simp [FindAtoms.search_set, FindAtoms.new, hnil, set_insert_range]

/-- C6: if the term's top type is `NOT_LINK`, or its type is a subtype of
`VIRTUAL_LINK`, or no VariableNode occurs in it, then `unify` returns false and
`derive_rules(source, term, rule)` returns the empty set, whatever the pattern
matcher and the other collaborators would answer: neither answer depends on
them. -/
theorem term_validity_filter (env : Env) (source term : Handle) (rule : RulePtr)
    (h : term.getType = .NOT_LINK ∨ env.isA term.getType .VIRTUAL_LINK = true
      ∨ ∀ v : Handle, v.isVariableNode = true → occurs_in v term = false) :
    unify env source term rule = false ∧ derive_rules_term env source term rule = [] := by
  have hv := is_valid_implicant_false env term h
  constructor
  · unfold unify; simp [hv]
  · unfold derive_rules_term; simp [hv]

/-- C6 at a concrete input: the term `Not($x)` with the source C. -/
theorem term_validity_filter_witness :
    ((Handle.link .NOT_LINK [var_x]).getType = .NOT_LINK
      ∨ env_no_match.isA (Handle.link .NOT_LINK [var_x]).getType .VIRTUAL_LINK = true
      ∨ ∀ v : Handle, v.isVariableNode = true
          → occurs_in v (Handle.link .NOT_LINK [var_x]) = false)
    ∧ unify env_no_match atom_C (.link .NOT_LINK [var_x]) ⟨0, rule_implication⟩ = false
    ∧ derive_rules_term env_no_match atom_C (.link .NOT_LINK [var_x]) ⟨0, rule_implication⟩
        = [] :=
  ⟨Or.inl rfl,
    term_validity_filter env_no_match atom_C (.link .NOT_LINK [var_x]) ⟨0, rule_implication⟩
      (Or.inl rfl)⟩

/-! ## Frames: what the operations leave unchanged -/

theorem same_but_stores_refl (fc : ForwardChainer) : same_but_stores fc fc :=
  ⟨fc._as, fc._focus_set_as, rfl⟩

theorem same_but_stores_trans {a b c : ForwardChainer} (h1 : same_but_stores a b)
    (h2 : same_but_stores b c) : same_but_stores a c := by
  obtain ⟨x, y, rfl⟩ := h1
  obtain ⟨u, v, rfl⟩ := h2
  exact ⟨u, v, rfl⟩

theorem add_result_back_frame (fc : ForwardChainer) (result : HandleSeq) :
    same_but_stores fc (add_result_back fc result) := by
  unfold add_result_back
  split
  · exact ⟨fc._as, _, rfl⟩
  · exact ⟨_, fc._focus_set_as, rfl⟩

theorem apply_rule_handle_frame (env : Env) (fc : ForwardChainer) (rhandle : Handle) :
    same_but_stores fc (apply_rule_handle env fc rhandle).2 := by
  unfold apply_rule_handle
  split
  · exact same_but_stores_refl fc
  · simp only
    repeat' split
    all_goals first
      | exact same_but_stores_refl fc
      | exact add_result_back_frame fc _
      | exact same_but_stores_trans ⟨_, fc._focus_set_as, rfl⟩ (add_result_back_frame _ _)

theorem apply_rule_fold_frame (env : Env) (fc : ForwardChainer) (l : List Handle)
    (acc : UnorderedHandleSet × ForwardChainer) (h : same_but_stores fc acc.2) :
    same_but_stores fc (l.foldl
      (fun acc rhandle =>
        let r := apply_rule_handle env acc.2 rhandle
        (set_insert_range acc.1 r.1, r.2)) acc).2 := by
  induction l generalizing acc with
  | nil => exact h
  | cons a rest ih =>
    simp only [List.foldl_cons]
    apply ih
    exact same_but_stores_trans h (apply_rule_handle_frame env acc.2 a)

theorem apply_rule_frame (env : Env) (fc : ForwardChainer) (rule : RulePtr) :
    same_but_stores fc (apply_rule env fc rule).2 := by
  unfold apply_rule
  simp only
  split
  · exact same_but_stores_refl fc
  · exact apply_rule_fold_frame env fc _ _ (same_but_stores_refl fc)

theorem choose_source_loop_sources (env : Env) (m : List (Handle × Weight)) (n : Nat)
    (fc : ForwardChainer) :
    (choose_source_loop env m n fc).2._potential_sources = fc._potential_sources
    ∧ fc._selected_sources ⊆ (choose_source_loop env m n fc).2._selected_sources := by
  induction n generalizing fc with
  | zero => exact ⟨rfl, fun _ h => h⟩
  | succ k ih =>
    unfold choose_source_loop
    simp only
    split
    · exact ih _
    · exact ⟨rfl, subset_set_insert _ _⟩

theorem choose_source_sources (env : Env) (fc : ForwardChainer) :
    (choose_source env fc).2._potential_sources = fc._potential_sources
    ∧ fc._selected_sources ⊆ (choose_source env fc).2._selected_sources := by
  unfold choose_source
  simp only
  split
  · exact choose_source_loop_sources env _ _ fc
  · exact choose_source_loop_sources env _ _ fc

/-! ## Monotone growth -/

theorem sources_grow_refl (fc : ForwardChainer) : sources_grow fc fc :=
  ⟨fun _ h => h, fun _ h => h⟩

theorem sources_grow_trans {a b c : ForwardChainer} (h1 : sources_grow a b)
    (h2 : sources_grow b c) : sources_grow a c :=
  ⟨fun _ h => h2.1 (h1.1 h), fun _ h => h2.2 (h1.2 h)⟩

theorem choose_source_grows (env : Env) (fc : ForwardChainer) :
    sources_grow fc (choose_source env fc).2 := by
  have h := choose_source_sources env fc
  exact ⟨by rw [h.1]; exact fun _ hx => hx, h.2⟩

theorem do_step_grows (env : Env) (fc : ForwardChainer) : sources_grow fc (do_step env fc) := by
  have hs := choose_source_sources env fc
  unfold do_step
  simp only [choose_rule]
  split
  · exact ⟨by simp only [hs.1]; exact fun _ hx => hx, hs.2⟩
  · rename_i rule _
    obtain ⟨a, f, hfr⟩ := apply_rule_frame env
      { (choose_source env fc).2 with
        _cur_source := (choose_source env fc).1
        draws := (choose_rule_loop env (choose_source env fc).1
          ((choose_source env fc).2._rules.foldl (fun m r => map_set m r r.get_weight) []).length
          ((choose_source env fc).2._rules.foldl (fun m r => map_set m r r.get_weight) [])
          (choose_source env fc).2.draws).2 } rule
    simp only [hfr]
    constructor
    · simp only [hs.1]
      exact subset_set_insert_range _ _
    · exact hs.2

theorem update_potential_sources_grows (fc : ForwardChainer) (input : HandleSeq) :
    sources_grow fc (update_potential_sources fc input) :=
  ⟨subset_set_insert_range _ _, fun _ h => h⟩

theorem apply_all_rules_body_grows (env : Env) (fc : ForwardChainer) (rule : RulePtr) :
    sources_grow fc (apply_all_rules_body env fc rule) := by
  unfold apply_all_rules_body update_potential_sources
  obtain ⟨a, f, hfr⟩ := apply_rule_handle_frame env fc rule.get_handle
  simp only [hfr]
  exact ⟨subset_set_insert_range _ _, fun _ h => h⟩

theorem apply_all_rules_loop_grows (env : Env) (l : List RulePtr) (fc : ForwardChainer) :
    sources_grow fc (apply_all_rules_loop env l fc) := by
  induction l generalizing fc with
  | nil => exact sources_grow_refl fc
  | cons r rest ih =>
    unfold apply_all_rules_loop
    exact sources_grow_trans (apply_all_rules_body_grows env fc r) (ih _)

theorem iterate_do_step_grows (env : Env) (k : Nat) (fc : ForwardChainer) :
    sources_grow fc ((do_step env)^[k] fc) := by
  induction k generalizing fc with
  | zero => exact sources_grow_refl fc
  | succ j ih =>
    rw [Function.iterate_succ_apply]
    exact sources_grow_trans (do_step_grows env fc) (ih _)

theorem do_chain_loop_grows (env : Env) (fuel : Nat) (fc : ForwardChainer)
    (r : ForwardChainer × Nat) (h : do_chain_loop env fuel fc = some r) :
    sources_grow fc r.1 := by
  induction fuel generalizing fc r with
  | zero =>
    unfold do_chain_loop at h
    split at h
    · simp only [Option.some.injEq] at h
      rw [← h]; exact sources_grow_refl fc
    · simp at h
  | succ n ih =>
    unfold do_chain_loop at h
    split at h
    · simp only [Option.some.injEq] at h
      rw [← h]; exact sources_grow_refl fc
    · obtain ⟨q, hq, hqr⟩ := Option.map_eq_some'.1 h
      rw [← hqr]
      exact sources_grow_trans (do_step_grows env fc) (ih _ q hq)

/-- C7: `update_potential_sources`, `choose_source`, `do_step`,
`apply_all_rules` and `do_chain` only let the potential-sources set and the
selected-sources set grow, for every behaviour of the collaborators: each set
before the operation is a subset of the same set after it; along a run of
`do_step`, the sets at step `n` are subsets of those at every later step `m`
(also for a run that never ends). -/
theorem monotone_growth (env : Env) (fc : ForwardChainer) :
    (∀ input, sources_grow fc (update_potential_sources fc input))
    ∧ sources_grow fc (choose_source env fc).2
    ∧ sources_grow fc (do_step env fc)
    ∧ sources_grow fc (apply_all_rules env fc)
    ∧ (∀ n m : Nat, n ≤ m → sources_grow ((do_step env)^[n] fc) ((do_step env)^[m] fc))
    ∧ (∀ fuel r, do_chain env fuel fc = some r → sources_grow fc r.1) := by
  refine ⟨update_potential_sources_grows fc, choose_source_grows env fc, do_step_grows env fc,
    apply_all_rules_loop_grows env _ fc, ?_, ?_⟩
  · intro n m hnm
    obtain ⟨k, rfl⟩ := Nat.exists_eq_add_of_le hnm
    rw [Nat.add_comm, Function.iterate_add_apply]
    exact iterate_do_step_grows env k _
  · intro fuel r h
    unfold do_chain at h
    split at h
    · simp only [Option.some.injEq] at h
      rw [← h]
      exact apply_all_rules_loop_grows env _ fc
    · exact do_chain_loop_grows env fuel fc r h

/-! ## Rule selection -/

theorem mem_keys_rule_weight (rules : List RulePtr) (x : RulePtr) :
    x ∈ (rules.foldl (fun (m : RuleMap) r => map_set m r r.get_weight) []).map Prod.fst
      ↔ x ∈ rules := by
  rw [mem_keys_foldl_map_set (fun r : RulePtr => r.get_weight)]
  simp

theorem any_unify_iff (env : Env) (source : Handle) (r : RulePtr) :
    (r.get_implicant_seq.any (fun term => unify env source term r)) = true
      ↔ rule_unifies env source r := by
  unfold rule_unifies
  simp only [List.any_eq_true]

theorem choose_rule_loop_spec (env : Env) (source : Handle) (fuel : Nat) (m : RuleMap)
    (draws : Nat) (hfuel : m.length ≤ fuel) :
    (∀ r, (choose_rule_loop env source fuel m draws).1 = some r →
        r ∈ m.map Prod.fst ∧ rule_unifies env source r)
    ∧ ((choose_rule_loop env source fuel m draws).1 = none →
        ∀ r, r ∈ m.map Prod.fst → ¬ rule_unifies env source r) := by
  induction fuel generalizing m draws with
  | zero =>
    have hm : m = [] := List.length_eq_zero.1 (Nat.le_zero.1 hfuel)
    subst hm
    unfold choose_rule_loop
    simp
  | succ n ih =>
    unfold choose_rule_loop
    cases hsel : tournament_select env.pick_rule draws m with
    | none =>
      have hm := tournament_select_none _ _ _ hsel
      subst hm
      simp
    | some temp =>
      have hkey := tournament_select_mem _ _ _ _ hsel
      simp only
      by_cases hu : (temp.get_implicant_seq.any (fun term => unify env source term temp)) = true
      · simp only [hu, if_true]
        constructor
        · intro r hr
          simp only [Option.some.injEq] at hr
          subst hr
          exact ⟨hkey, (any_unify_iff env source temp).1 hu⟩
        · intro hr; simp at hr
      · simp only [hu, if_false]
        have hlen : (map_erase m temp).length ≤ n := by
          have := length_map_erase_lt m temp hkey
          omega
        have h := ih (map_erase m temp) (draws + 1) hlen
        constructor
        · intro r hr
          have := h.1 r hr
          exact ⟨((mem_keys_map_erase m temp r).1 this.1).1, this.2⟩
        · intro hr r hmem
          by_cases hrt : r = temp
          · subst hrt
            exact fun hc => hu ((any_unify_iff env source r).2 hc)
          · exact h.2 hr r ((mem_keys_map_erase m temp r).2 ⟨hmem, hrt⟩)

theorem choose_rule_loop_nil (env : Env) (source : Handle) (fuel draws : Nat) :
    choose_rule_loop env source fuel [] draws = (none, draws) := by
  cases fuel with
  | zero => rfl
  | succ n =>
    unfold choose_rule_loop
    simp [tournament_select]

theorem choose_rule_loop_fuel (env : Env) (source : Handle) (fuel1 fuel2 : Nat) (m : RuleMap)
    (draws : Nat) (h1 : m.length ≤ fuel1) (h2 : m.length ≤ fuel2) :
    choose_rule_loop env source fuel1 m draws = choose_rule_loop env source fuel2 m draws := by
  induction fuel1 generalizing fuel2 m draws with
  | zero =>
    have hm : m = [] := List.length_eq_zero.1 (Nat.le_zero.1 h1)
    subst hm
    rw [choose_rule_loop_nil, choose_rule_loop_nil]
  | succ n ih =>
    cases fuel2 with
    | zero =>
      have hm : m = [] := List.length_eq_zero.1 (Nat.le_zero.1 h2)
      subst hm
      rw [choose_rule_loop_nil, choose_rule_loop_nil]
    | succ k =>
      unfold choose_rule_loop
      cases hsel : tournament_select env.pick_rule draws m with
      | none => rfl
      | some temp =>
        have hkey := tournament_select_mem _ _ _ _ hsel
        have hlt := length_map_erase_lt m temp hkey
        simp only
        split
        · rfl
        · exact ih k _ _ (by omega) (by omega)

/-- C8: for every source, rule list and sampler (which returns a key of the
non-empty weight map it is given), `choose_rule` returns either a rule of the
rule list one of whose implicant terms unifies with the source, or no rule, and
it returns no rule exactly when no rule of the list has an implicant term that
unifies with the source. -/
theorem choose_rule_result (env : Env) (fc : ForwardChainer) (source : Handle) :
    (∀ r, (choose_rule env fc source).1 = some r →
        r ∈ fc._rules ∧ ∃ t, t ∈ r.get_implicant_seq ∧ unify env source t r = true)
    ∧ ((choose_rule env fc source).1 = none ↔
        ∀ r, r ∈ fc._rules → ∀ t, t ∈ r.get_implicant_seq → unify env source t r = false) := by
  have h := choose_rule_loop_spec env source
    (fc._rules.foldl (fun (m : RuleMap) r => map_set m r r.get_weight) []).length
    (fc._rules.foldl (fun (m : RuleMap) r => map_set m r r.get_weight) []) fc.draws (le_refl _)
  have h1 : ∀ r, (choose_rule env fc source).1 = some r →
      r ∈ fc._rules ∧ ∃ t, t ∈ r.get_implicant_seq ∧ unify env source t r = true := by
    intro r hr
    have := h.1 r hr
    exact ⟨(mem_keys_rule_weight fc._rules r).1 this.1, this.2⟩
  refine ⟨h1, ?_, ?_⟩
  · intro hnone r hr t ht
    have := h.2 hnone r ((mem_keys_rule_weight fc._rules r).2 hr)
    by_contra hc
    exact this ⟨t, ht, by simpa using hc⟩
  · intro hall
    cases hres : (choose_rule env fc source).1 with
    | none => rfl
    | some r =>
      obtain ⟨hr, t, ht, hu⟩ := h1 r hres
      rw [hall r hr t ht] at hu
      exact absurd hu (by simp)

/-! ## Construction -/

theorem init_fields (fc : ForwardChainer) (hsource : Handle) (focus_set : HandleSeq)
    (hdef : hsource ≠ .UNDEFINED) :
    ∃ fc2, init fc hsource focus_set = .ok fc2
      ∧ fc2._potential_sources = set_insert_range fc._potential_sources
          (if hsource.getType = .SET_LINK then hsource.getOutgoingSet else [hsource])
      ∧ fc2._selected_sources = fc._selected_sources
      ∧ fc2._iteration = 0
      ∧ fc2._max_iteration = fc._configReader.maximum_iterations
      ∧ fc2._rules = fc._rules ++ rule_pointers 0 fc._configReader.rules := by
  unfold init validate update_potential_sources
  simp only [hdef, if_false]
  by_cases hf : (!focus_set.isEmpty) = true
  · simp only [hf, if_true]
    exact ⟨_, rfl, rfl, rfl, rfl, rfl, rfl⟩
  · simp only [hf]
    exact ⟨_, rfl, rfl, rfl, rfl, rfl, rfl⟩

theorem not_mem_own_outgoing (t : AtomType) (o : List Handle) : Handle.link t o ∉ o := by
  intro h
  have h1 := List.sizeOf_lt_of_mem h
  have h2 : sizeOf (Handle.link t o) = 1 + sizeOf t + sizeOf o := by simp
  omega

/-- C9: for every defined initial source handle `h`, construction succeeds and
afterwards the potential-sources set is exactly the set of the members of the
outgoing set of `h` when `h` is a `SET_LINK` (and then does not contain `h`
itself) and exactly the set made of `h` otherwise; the iteration count is 0 and the
selected-sources set is empty. -/
theorem init_potential_sources (as : AtomSpace) (cr : UREConfigReader) (h : Handle)
    (focus_set : HandleSeq) (hdef : h ≠ .UNDEFINED) :
    ∃ fc, ForwardChainer.new as cr h focus_set = .ok fc
      ∧ (h.getType = .SET_LINK →
          (∀ x, x ∈ fc._potential_sources ↔ x ∈ h.getOutgoingSet)
          ∧ h ∉ fc._potential_sources)
      ∧ (h.getType ≠ .SET_LINK → ∀ x, x ∈ fc._potential_sources ↔ x = h)
      ∧ fc._iteration = 0
      ∧ fc._selected_sources = [] := by
  obtain ⟨fc, hok, hpot, hsel, hit, _, _⟩ :=
    init_fields (ForwardChainer.members as cr) h focus_set hdef
  refine ⟨fc, hok, ?_, ?_, hit, by rw [hsel]; rfl⟩
  · intro hset
    have hmem : ∀ x, x ∈ fc._potential_sources ↔ x ∈ h.getOutgoingSet := by
      intro x
      rw [hpot, mem_set_insert_range]
      simp [hset, ForwardChainer.members]
    refine ⟨hmem, ?_⟩
    rw [hmem]
    cases h with
    | UNDEFINED => simp [Handle.getOutgoingSet]
    | node t n => simp [Handle.getOutgoingSet]
    | link t o => exact not_mem_own_outgoing t o
  · intro hset x
    rw [hpot, mem_set_insert_range]
    simp [hset, ForwardChainer.members]

/-- C9 at a concrete input: the initial source `SetLink(A, B)`. -/
theorem init_potential_sources_witness :
    Handle.link .SET_LINK [atom_A, atom_B] ≠ .UNDEFINED
    ∧ ∃ fc, ForwardChainer.new ⟨[atom_A, atom_B], []⟩ ⟨[rule_implication], 1, false⟩
          (.link .SET_LINK [atom_A, atom_B]) [] = .ok fc
      ∧ ((Handle.link .SET_LINK [atom_A, atom_B]).getType = .SET_LINK →
          (∀ x, x ∈ fc._potential_sources
            ↔ x ∈ (Handle.link .SET_LINK [atom_A, atom_B]).getOutgoingSet)
          ∧ Handle.link .SET_LINK [atom_A, atom_B] ∉ fc._potential_sources)
      ∧ ((Handle.link .SET_LINK [atom_A, atom_B]).getType ≠ .SET_LINK →
          ∀ x, x ∈ fc._potential_sources ↔ x = Handle.link .SET_LINK [atom_A, atom_B])
      ∧ fc._iteration = 0
      ∧ fc._selected_sources = [] :=
  ⟨by decide,
    init_potential_sources ⟨[atom_A, atom_B], []⟩ ⟨[rule_implication], 1, false⟩
      (.link .SET_LINK [atom_A, atom_B]) [] (by decide)⟩

/-! ## Empty initial sources -/

theorem apply_all_rules_body_frame (env : Env) (fc : ForwardChainer) (rule : RulePtr) :
    (apply_all_rules_body env fc rule)._iteration = fc._iteration
    ∧ (apply_all_rules_body env fc rule)._selected_sources = fc._selected_sources
    ∧ (apply_all_rules_body env fc rule)._rules = fc._rules
    ∧ (apply_all_rules_body env fc rule)._fcstat.records = fc._fcstat.records ++
        [⟨.UNDEFINED, rule, set_insert_range [] (apply_rule_handle env fc rule.get_handle).1⟩]
    ∧ (apply_all_rules_body env fc rule)._potential_sources =
        set_insert_range fc._potential_sources (apply_rule_handle env fc rule.get_handle).1 := by
  unfold apply_all_rules_body update_potential_sources FCStat.add_inference_record
  obtain ⟨a, f, hfr⟩ := apply_rule_handle_frame env fc rule.get_handle
  simp [hfr]

theorem apply_all_rules_loop_frame (env : Env) (l : List RulePtr) (fc : ForwardChainer) :
    (apply_all_rules_loop env l fc)._iteration = fc._iteration
    ∧ (apply_all_rules_loop env l fc)._selected_sources = fc._selected_sources
    ∧ (apply_all_rules_loop env l fc)._fcstat.records
        = fc._fcstat.records ++ apply_all_records env l fc
    ∧ (∀ x, x ∈ (apply_all_rules_loop env l fc)._potential_sources ↔
        (x ∈ fc._potential_sources
          ∨ ∃ r, r ∈ apply_all_records env l fc ∧ x ∈ r.product)) := by
  induction l generalizing fc with
  | nil =>
    unfold apply_all_rules_loop apply_all_records
    simp
  | cons rule rest ih =>
    unfold apply_all_rules_loop apply_all_records
    obtain ⟨h1, h2, h3, h4⟩ := ih (apply_all_rules_body env fc rule)
    obtain ⟨b1, b2, _, b4, b5⟩ := apply_all_rules_body_frame env fc rule
    refine ⟨by rw [h1, b1], by rw [h2, b2], by rw [h3, b4]; simp, ?_⟩
    intro x
    rw [h4 x, b5, mem_set_insert_range]
    simp only [List.mem_cons]
    constructor
    · rintro ((hx | hx) | ⟨r, hr, hxr⟩)
      · exact Or.inl hx
      · exact Or.inr ⟨_, Or.inl rfl, (mem_set_insert_range _ _ _).2 (Or.inr hx)⟩
      · exact Or.inr ⟨r, Or.inr hr, hxr⟩
    · rintro (hx | ⟨r, hr | hr, hxr⟩)
      · exact Or.inl (Or.inl hx)
      · subst hr
        have := (mem_set_insert_range _ _ _).1 hxr
        simp only [List.not_mem_nil, false_or] at this
        exact Or.inl (Or.inr this)
      · exact Or.inr ⟨r, hr, hxr⟩

theorem apply_all_records_length (env : Env) (l : List RulePtr) (fc : ForwardChainer) :
    (apply_all_records env l fc).length = l.length := by
  induction l generalizing fc with
  | nil => rfl
  | cons rule rest ih =>
    unfold apply_all_records
    simp [ih]

theorem apply_all_records_get (env : Env) (l : List RulePtr) (fc : ForwardChainer) (i : Nat)
    (rule : RulePtr) (hi : l.get? i = some rule) :
    (apply_all_records env l fc).get? i = some
      ⟨.UNDEFINED, rule, set_insert_range []
        (apply_rule_handle env (apply_all_rules_loop env (l.take i) fc) rule.get_handle).1⟩ := by
  induction l generalizing fc i with
  | nil => simp at hi
  | cons r rest ih =>
    cases i with
    | zero =>
      simp only [List.get?_cons_zero, Option.some.injEq] at hi
      subst hi
      unfold apply_all_records
      simp [apply_all_rules_loop]
    | succ j =>
      simp only [List.get?_cons_succ] at hi
      unfold apply_all_records
      simp only [List.get?_cons_succ, List.take_succ_cons]
      rw [ih _ j hi]
      rfl

/-- C10: when the potential-sources set is empty at the start of `do_chain`,
for every rule list, maximum iteration count and fuel, `do_chain` returns
without invoking `do_step` (the iteration count and the selected-sources set
are unchanged), having appended one record per rule in list order: the `i`-th
new record holds the undefined source, the `i`-th rule and the set of atoms
returned by `apply_rule` on that rule's own handle in the state left by the
first `i` rules; the potential sources are then exactly the atoms of these
product sets. -/
theorem do_chain_empty_sources (env : Env) (fc : ForwardChainer) (fuel : Nat)
    (hempty : fc._potential_sources = []) :
    ∃ fc2, do_chain env fuel fc = some (fc2, 0)
      ∧ fc2._iteration = fc._iteration
      ∧ fc2._selected_sources = fc._selected_sources
      ∧ fc2._fcstat.records.length = fc._fcstat.records.length + fc._rules.length
      ∧ fc2._fcstat.records.take fc._fcstat.records.length = fc._fcstat.records
      ∧ (∀ i rule, fc._rules.get? i = some rule →
          fc2._fcstat.records.get? (fc._fcstat.records.length + i) = some
            ⟨.UNDEFINED, rule, set_insert_range []
              (apply_rule_handle env (apply_all_rules_loop env (fc._rules.take i) fc)
                rule.get_handle).1⟩
          ∧ ∀ x, x ∈ (apply_rule_handle env (apply_all_rules_loop env (fc._rules.take i) fc)
                rule.get_handle).1 → x ∈ fc2._potential_sources)
      ∧ (∀ x, x ∈ fc2._potential_sources ↔
          ∃ r, r ∈ fc2._fcstat.records.drop fc._fcstat.records.length ∧ x ∈ r.product) := by
  obtain ⟨h1, h2, h3, h4⟩ := apply_all_rules_loop_frame env fc._rules fc
  refine ⟨apply_all_rules env fc, ?_, h1, h2, ?_, ?_, ?_, ?_⟩
  · unfold do_chain
    simp [hempty]
  · unfold apply_all_rules
    rw [h3, List.length_append, apply_all_records_length]
  · unfold apply_all_rules
    rw [h3]
    simp
  · intro i rule hi
    have hg := apply_all_records_get env fc._rules fc i rule hi
    constructor
    · unfold apply_all_rules
      rw [h3, List.get?_eq_getElem?, List.getElem?_append_right (by omega)]
      simpa using hg
    · intro x hx
      unfold apply_all_rules
      rw [h4 x]
      right
      exact ⟨_, List.get?_mem hg, (mem_set_insert_range _ _ _).2 (Or.inr hx)⟩
  · intro x
    unfold apply_all_rules
    rw [h4 x, h3]
    simp [hempty]

/-- C10 at a concrete input: no potential source, one rule, and a pattern
matcher that produces B; B becomes the only potential source. -/
theorem do_chain_empty_sources_witness :
    fc_no_sources._potential_sources = []
    ∧ (do_chain env_product_B 0 fc_no_sources).map (fun r => r.1._potential_sources)
        = some [atom_B]
    ∧ ∃ fc2, do_chain env_product_B 0 fc_no_sources = some (fc2, 0)
      ∧ fc2._iteration = fc_no_sources._iteration
      ∧ fc2._selected_sources = fc_no_sources._selected_sources
      ∧ fc2._fcstat.records.length
          = fc_no_sources._fcstat.records.length + fc_no_sources._rules.length
      ∧ fc2._fcstat.records.take fc_no_sources._fcstat.records.length
          = fc_no_sources._fcstat.records
      ∧ (∀ i rule, fc_no_sources._rules.get? i = some rule →
          fc2._fcstat.records.get? (fc_no_sources._fcstat.records.length + i) = some
            ⟨.UNDEFINED, rule, set_insert_range []
              (apply_rule_handle env_product_B
                (apply_all_rules_loop env_product_B (fc_no_sources._rules.take i) fc_no_sources)
                rule.get_handle).1⟩
          ∧ ∀ x, x ∈ (apply_rule_handle env_product_B
                (apply_all_rules_loop env_product_B (fc_no_sources._rules.take i) fc_no_sources)
                rule.get_handle).1 → x ∈ fc2._potential_sources)
      ∧ (∀ x, x ∈ fc2._potential_sources ↔
          ∃ r, r ∈ fc2._fcstat.records.drop fc_no_sources._fcstat.records.length
            ∧ x ∈ r.product) :=
  ⟨rfl, by decide, do_chain_empty_sources env_product_B fc_no_sources 0 rfl⟩

/-! ## Focus-set confinement -/

theorem apply_rule_handle_global_store_without_debug (env : Env) (fc : ForwardChainer)
    (rhandle : Handle) (hdebug : env.is_debug_enabled = false)
    (hfocus : fc._search_focus_set = true) :
    (apply_rule_handle env fc rhandle).2._as = fc._as := by
  unfold apply_rule_handle add_result_back
  split
  · rfl
  · simp only [hdebug, hfocus, if_true]
    repeat' split
    all_goals first
      | rfl
      | simp_all

/-- C5 (the code at the failing input): a focus set is searched, the derived
rule still holds a variable, and the chainer logger is at debug level.  The
operand `_as.add_link(SET_LINK, result)` of the debug statement is evaluated,
so after `apply_rule(Handle)` the global store holds the atom `SetLink(B)`
that it did not hold before. -/
theorem apply_rule_handle_debug_writes_global_store :
    fc_focus_set._search_focus_set = true
    ∧ fc_focus_set._focus_set ≠ []
    ∧ contains_VARIABLE_NODE derived_rule_A = true
    ∧ (apply_rule_handle env_debug fc_focus_set derived_rule_A).1 = [atom_B]
    ∧ Handle.link .SET_LINK [atom_B] ∉ fc_focus_set._as.atoms
    ∧ Handle.link .SET_LINK [atom_B]
        ∈ (apply_rule_handle env_debug fc_focus_set derived_rule_A).2._as.atoms
    ∧ (apply_rule_handle env_debug fc_focus_set derived_rule_A).2._as.atoms
        ≠ fc_focus_set._as.atoms := by
  refine ⟨rfl, by decide, by decide, by decide, by decide, by decide, by decide⟩

/-! ## Evaluations on small inputs -/

theorem gen_sub_varlist_example :
    gen_sub_varlist (.link .AND_LINK [implication atom_A var_y, atom_A])
        (.link .VARIABLE_LIST [var_x, .link .TYPED_VARIABLE_LINK [var_y, atom_C]])
      = .link .VARIABLE_LIST [.link .TYPED_VARIABLE_LINK [var_y, atom_C]] := by
  decide

theorem choose_rule_example_found :
    (choose_rule env_match_A fc_sources_AB atom_A).1 = some ⟨0, rule_implication⟩
    ∧ (choose_rule env_match_A fc_sources_AB atom_B).1 = none := by
  decide

theorem do_step_example_counts :
    (do_step env_match_A fc_sources_AB)._iteration = 1
    ∧ (do_chain env_match_A 1 fc_sources_AB).map (fun r => r.2) = some 1 := by
  decide

/-! ## The invalid-source error -/

/-- C11: construction raises the invalid-source error if and only if the
initial source handle is the undefined handle, for every store, configuration
and focus set, and it raises no other error; when it raises, `init` has left
at `validate`, before its first assignment: the outcome is the error alone,
whatever the members, the configuration and the focus set are, and no chainer
with potential sources, rules or counters results. -/
theorem invalid_source_iff (as : AtomSpace) (cr : UREConfigReader) (h : Handle)
    (focus_set : HandleSeq) :
    (ForwardChainer.new as cr h focus_set
        = .error (.RuntimeException "ForwardChainer - Invalid source.") ↔ h = .UNDEFINED)
    ∧ ((∃ e, ForwardChainer.new as cr h focus_set = .error e) ↔ h = .UNDEFINED)
    ∧ (validate h focus_set = .error (.RuntimeException "ForwardChainer - Invalid source.")
        ↔ h = .UNDEFINED)
    ∧ (h = .UNDEFINED → ∀ (fc : ForwardChainer) (fs : HandleSeq),
        init fc h fs = .error (.RuntimeException "ForwardChainer - Invalid source.")
        ∧ ¬ ∃ fc2, init fc h fs = .ok fc2) := by
  by_cases hh : h = .UNDEFINED
  · subst hh
    have hi : ∀ (fc : ForwardChainer) (fs : HandleSeq),
        init fc .UNDEFINED fs = .error (.RuntimeException "ForwardChainer - Invalid source.") := by
      intro fc fs
      unfold init validate
      simp
    refine ⟨⟨fun _ => rfl, fun _ => hi _ _⟩, ⟨fun _ => rfl, fun _ => ⟨_, hi _ _⟩⟩,
      ⟨fun _ => rfl, fun _ => by simp [validate]⟩, ?_⟩
    intro _ fc fs
    refine ⟨hi fc fs, ?_⟩
    rintro ⟨fc2, h2⟩
    rw [hi fc fs] at h2
    cases h2
  · obtain ⟨fc2, hok, _⟩ := init_fields (ForwardChainer.members as cr) h focus_set hh
    have hnew : ForwardChainer.new as cr h focus_set = .ok fc2 := hok
    refine ⟨⟨?_, fun e => absurd e hh⟩, ⟨?_, fun e => absurd e hh⟩,
      ⟨?_, fun e => absurd e hh⟩, fun e => absurd e hh⟩
    · intro he
      rw [hnew] at he
      cases he
    · rintro ⟨e, he⟩
      rw [hnew] at he
      cases he
    · intro he
      simp [validate, hh] at he

/-! ## The fully grounded regime -/

/-- C14: for every derived rule handle `BindLink(decl, body, implicand)` in
which no VariableNode occurs, `apply_rule(Handle)` returns the empty sequence
and leaves the chainer with both stores unchanged if some child of the body
(its outgoing set when it is an `AND_LINK` or `OR_LINK`, the single body
otherwise) is absent from the global store or, when a focus set is searched,
from the focus-set store; otherwise it returns exactly one atom, the
instantiation of the implicand with empty bindings. -/
theorem apply_rule_handle_fully_grounded (env : Env) (fc : ForwardChainer)
    (decl body implicand : Handle)
    (hground : ∀ v : Handle, v.isVariableNode = true →
      occurs_in v (.link .BIND_LINK [decl, body, implicand]) = false) :
    ((∃ c, c ∈ body_children body ∧ child_absent fc c) →
        apply_rule_handle env fc (.link .BIND_LINK [decl, body, implicand]) = ([], fc))
    ∧ ((¬ ∃ c, c ∈ body_children body ∧ child_absent fc c) →
        (apply_rule_handle env fc (.link .BIND_LINK [decl, body, implicand])).1
          = [env.instantiate fc._as implicand]) := by
  have hnil : find_rec (.link .BIND_LINK [decl, body, implicand]) = [] := by
    apply List.eq_nil_iff_forall_not_mem.2
    intro x hx
    have := (mem_find_rec _ x).1 hx
    rw [hground x this.1] at this
    exact absurd this.2 (by simp)
  have hc : contains_VARIABLE_NODE (.link .BIND_LINK [decl, body, implicand]) = false := by
    unfold contains_VARIABLE_NODE
    rw [hnil]; rfl
  have hany : (List.any (body_children body) (fun h =>
      decide (fc._as.get_atom h = .UNDEFINED)
      || (fc._search_focus_set && decide (fc._focus_set_as.get_atom h = .UNDEFINED))) = true)
      ↔ ∃ c, c ∈ body_children body ∧ child_absent fc c := by
    simp only [List.any_eq_true, Bool.or_eq_true, Bool.and_eq_true, decide_eq_true_eq,
      child_absent]
  constructor
  · intro habs
    unfold apply_rule_handle
    simp only [BindLinkCast, hc, Bool.not_false, if_true]
    have := hany.2 habs
    unfold body_children at this
    simp only [this, if_true]
  · intro habs
    unfold apply_rule_handle
    simp only [BindLinkCast, hc, Bool.not_false, if_true]
    have : ¬ (List.any (body_children body) (fun h =>
      decide (fc._as.get_atom h = .UNDEFINED)
      || (fc._search_focus_set && decide (fc._focus_set_as.get_atom h = .UNDEFINED))) = true) :=
      fun h => habs (hany.1 h)
    unfold body_children at this
    simp [this]

/-- C14 at a concrete input: the fully grounded rule
`BindLink(VariableList(), And(Implication(A, B), A), B)` in the focus-set state,
where both children are in both stores, yields the instantiation of B. -/
theorem apply_rule_handle_fully_grounded_witness :
    (∀ v : Handle, v.isVariableNode = true →
      occurs_in v (.link .BIND_LINK [.link .VARIABLE_LIST [],
        .link .AND_LINK [implication atom_A atom_B, atom_A], atom_B]) = false)
    ∧ (apply_rule_handle env_product_B fc_focus_set (.link .BIND_LINK [.link .VARIABLE_LIST [],
        .link .AND_LINK [implication atom_A atom_B, atom_A], atom_B])).1 = [atom_B]
    ∧ ((∃ c, c ∈ body_children (.link .AND_LINK [implication atom_A atom_B, atom_A])
          ∧ child_absent fc_focus_set c) →
        apply_rule_handle env_product_B fc_focus_set (.link .BIND_LINK [.link .VARIABLE_LIST [],
          .link .AND_LINK [implication atom_A atom_B, atom_A], atom_B]) = ([], fc_focus_set))
    ∧ ((¬ ∃ c, c ∈ body_children (.link .AND_LINK [implication atom_A atom_B, atom_A])
          ∧ child_absent fc_focus_set c) →
        (apply_rule_handle env_product_B fc_focus_set (.link .BIND_LINK [.link .VARIABLE_LIST [],
          .link .AND_LINK [implication atom_A atom_B, atom_A], atom_B])).1
          = [env_product_B.instantiate fc_focus_set._as atom_B]) :=
  have hg : ∀ v : Handle, v.isVariableNode = true →
      occurs_in v (.link .BIND_LINK [.link .VARIABLE_LIST [],
        .link .AND_LINK [implication atom_A atom_B, atom_A], atom_B]) = false := by
    intro v hv
    cases v with
    | UNDEFINED => simp [Handle.isVariableNode] at hv
    | link t o => simp [Handle.isVariableNode] at hv
    | node t n =>
      cases t <;> simp [Handle.isVariableNode] at hv
      simp [occurs_in, occurs_in_seq, implication, atom_A, atom_B]
  ⟨hg, by decide,
    apply_rule_handle_fully_grounded env_product_B fc_focus_set (.link .VARIABLE_LIST [])
      (.link .AND_LINK [implication atom_A atom_B, atom_A]) atom_B hg⟩

/-! ## Rule derivation -/

theorem candidate_fold_ne (rhandle : Handle) (cands : HandleSeq) (acc : UnorderedHandleSet)
    (hacc : ∀ x, x ∈ acc → x ≠ rhandle) :
    ∀ x, x ∈ cands.foldl
      (fun derived_rules nr => if nr ≠ rhandle then set_insert derived_rules nr else derived_rules)
      acc → x ≠ rhandle := by
  induction cands generalizing acc with
  | nil => exact hacc
  | cons c rest ih =>
    simp only [List.foldl_cons]
    apply ih
    intro x hx
    split at hx
    · rcases (mem_set_insert acc c x).1 hx with h | h
      · exact hacc x h
      · rw [h]; assumption
    · exact hacc x hx

theorem derive_rules_entry_ne (sourcecpy : Handle) (rule : RulePtr) (vg : List HandleMap)
    (acc : FindAtoms × UnorderedHandleSet) (it : Handle × Handle)
    (hacc : ∀ x, x ∈ acc.2 → x ≠ rule.get_handle) :
    ∀ x, x ∈ (derive_rules_entry sourcecpy rule vg acc it).2 → x ≠ rule.get_handle := by
  unfold derive_rules_entry
  split
  · exact candidate_fold_ne _ _ _ hacc
  · exact hacc

theorem derive_rules_entries_ne (sourcecpy : Handle) (rule : RulePtr) (vg : List HandleMap)
    (m : HandleMap) (acc : FindAtoms × UnorderedHandleSet)
    (hacc : ∀ x, x ∈ acc.2 → x ≠ rule.get_handle) :
    ∀ x, x ∈ (m.foldl (derive_rules_entry sourcecpy rule vg) acc).2 → x ≠ rule.get_handle := by
  induction m generalizing acc with
  | nil => exact hacc
  | cons it rest ih =>
    simp only [List.foldl_cons]
    exact ih _ (derive_rules_entry_ne sourcecpy rule vg acc it hacc)

theorem derive_rules_maps_ne (sourcecpy : Handle) (rule : RulePtr) (vg : List HandleMap)
    (ms : List HandleMap) (acc : FindAtoms × UnorderedHandleSet)
    (hacc : ∀ x, x ∈ acc.2 → x ≠ rule.get_handle) :
    ∀ x, x ∈ (ms.foldl
      (fun acc termg_map => termg_map.foldl (derive_rules_entry sourcecpy rule vg) acc) acc).2
      → x ≠ rule.get_handle := by
  induction ms generalizing acc with
  | nil => exact hacc
  | cons m rest ih =>
    simp only [List.foldl_cons]
    exact ih _ (derive_rules_entries_ne sourcecpy rule vg m acc hacc)

theorem derive_rules_term_ne (env : Env) (source term : Handle) (rule : RulePtr) :
    ∀ x, x ∈ derive_rules_term env source term rule → x ≠ rule.get_handle := by
  unfold derive_rules_term
  split
  · intro x hx; simp at hx
  · exact derive_rules_maps_ne source rule _ _ _ (by intro x hx; cases hx)

theorem mem_foldl_set_insert_range (f : Handle → UnorderedHandleSet) (terms : HandleSeq)
    (acc : UnorderedHandleSet) (x : Handle) :
    x ∈ terms.foldl (fun derived_rules term => set_insert_range derived_rules (f term)) acc
      ↔ x ∈ acc ∨ ∃ t, t ∈ terms ∧ x ∈ f t := by
  induction terms generalizing acc with
  | nil => simp
  | cons t rest ih =>
    simp only [List.foldl_cons, List.mem_cons]
    rw [ih, mem_set_insert_range]
    constructor
    · rintro ((h | h) | ⟨u, hu, hx⟩)
      · exact Or.inl h
      · exact Or.inr ⟨t, Or.inl rfl, h⟩
      · exact Or.inr ⟨u, Or.inr hu, hx⟩
    · rintro (h | ⟨u, hu | hu, hx⟩)
      · exact Or.inl (Or.inl h)
      · subst hu; exact Or.inl (Or.inr hx)
      · exact Or.inr ⟨u, hu, hx⟩

/-- C15: for every source and every rule, no handle in the set returned by
`derive_rules(source, rule)` equals the rule's own handle, and that set is
exactly the union, over the terms `t` of the rule's implicant sequence, of
`derive_rules(source, t, rule)`. -/
theorem derive_rules_union (env : Env) (source : Handle) (rule : RulePtr) :
    (∀ x, x ∈ derive_rules env source rule → x ≠ rule.get_handle)
    ∧ (∀ x, x ∈ derive_rules env source rule
        ↔ ∃ t, t ∈ rule.get_implicant_seq ∧ x ∈ derive_rules_term env source t rule) := by
  have hunion : ∀ x, x ∈ derive_rules env source rule
      ↔ ∃ t, t ∈ rule.get_implicant_seq ∧ x ∈ derive_rules_term env source t rule := by
    intro x
    unfold derive_rules
    rw [mem_foldl_set_insert_range (fun term => derive_rules_term env source term rule)]
    simp
  refine ⟨?_, hunion⟩
  intro x hx
  obtain ⟨t, _, hxt⟩ := (hunion x).1 hx
  exact derive_rules_term_ne env source t rule x hxt

/-! ## The selected-sources set -/

/-- C16 (the code at the failing input): potential sources A and B, A selected
before, and a sampler that draws A twice and then B.  Both rounds of the
novelty loop reject A, the closing `return urec.tournament_select(...)`
returns B without inserting it, and B is not in the selected-sources set
after the call. -/
theorem choose_source_result_not_selected :
    fc_sources_AB._potential_sources ≠ []
    ∧ (choose_source env_third_second fc_sources_AB).1 = atom_B
    ∧ (choose_source env_third_second fc_sources_AB).2._selected_sources = [atom_A]
    ∧ (choose_source env_third_second fc_sources_AB).1
        ∉ (choose_source env_third_second fc_sources_AB).2._selected_sources := by
  refine ⟨by decide, by decide, by decide, by decide⟩

/-! ## Sources and targets of a link -/

theorem link_scan_iff (l : Link) (h : Handle) (n i : Nat) :
    l.scan h i n = true ↔ ∃ j, i ≤ j ∧ j < i + n ∧ l.outgoing.get? j = some h := by
  induction n generalizing i with
  | zero =>
    unfold Link.scan
    simp only [Bool.false_eq_true, false_iff]
    rintro ⟨j, h1, h2, _⟩
    omega
  | succ k ih =>
    unfold Link.scan
    by_cases hi : l.outgoing.get? i = some h
    · simp only [hi, if_true, true_iff]
      exact ⟨i, le_refl _, by omega, hi⟩
    · simp only [hi, if_false]
      rw [ih]
      constructor
      · rintro ⟨j, h1, h2, h3⟩
        exact ⟨j, by omega, by omega, h3⟩
      · rintro ⟨j, h1, h2, h3⟩
        have : j ≠ i := by
          rintro rfl
          exact hi h3
        exact ⟨j, by omega, by omega, h3⟩

theorem link_scan_all_iff (l : Link) (h : Handle) :
    l.scan h 0 l.outgoing.length = true ↔ ∃ i, at_position l h i := by
  rw [link_scan_iff]
  unfold at_position
  constructor
  · rintro ⟨j, _, h2, h3⟩
    exact ⟨j, by omega, h3⟩
  · rintro ⟨j, h2, h3⟩
    exact ⟨j, by omega, by omega, h3⟩

theorem link_scan_tail_iff (l : Link) (h : Handle) :
    l.scan h 1 (l.outgoing.length - 1) = true ↔ ∃ i, 1 ≤ i ∧ at_position l h i := by
  rw [link_scan_iff]
  unfold at_position
  constructor
  · rintro ⟨j, h1, h2, h3⟩
    exact ⟨j, h1, by omega, h3⟩
  · rintro ⟨j, h1, h2, h3⟩
    exact ⟨j, h1, by omega, h3⟩

theorem at_position_iff_mem (l : Link) (h : Handle) :
    (∃ i, at_position l h i) ↔ h ∈ l.outgoing := by
  unfold at_position
  constructor
  · rintro ⟨i, _, hi⟩
    exact List.get?_mem hi
  · intro hm
    obtain ⟨i, hi⟩ := List.get?_of_mem hm
    have hlt : i < l.outgoing.length := by
      by_contra hc
      rw [List.get?_eq_none.2 (by omega)] at hi
      cases hi
    exact ⟨i, hlt, hi⟩

theorem link_scan_all_perm (l l2 : Link) (h : Handle) (hp : l2.outgoing.Perm l.outgoing) :
    l2.scan h 0 l2.outgoing.length = l.scan h 0 l.outgoing.length := by
  rw [Bool.eq_iff_iff, link_scan_all_iff, link_scan_all_iff, at_position_iff_mem,
    at_position_iff_mem]
  exact hp.mem_iff

/-- C17: for every link and handle `h`, the class hierarchy keeping ordered and
unordered links apart: if the link's type is an `ORDERED_LINK`,
`isSource(h)` is true exactly when the arity is positive and the first element
of the outgoing set equals `h`; if it is an `UNORDERED_LINK`, the result is
true exactly when `h` occurs at some position of the outgoing set, and it is
the same for every permutation of the outgoing set; for a type that is
neither, `InvalidParamException` is raised. -/
theorem isSource_handle (isAssignableFrom : AtomType → AtomType → Bool) (l : Link)
    (h : Handle)
    (hpart : ¬ (isAssignableFrom .ORDERED_LINK l.type = true
      ∧ isAssignableFrom .UNORDERED_LINK l.type = true)) :
    (isAssignableFrom .ORDERED_LINK l.type = true →
      ∃ b, l.isSource isAssignableFrom h = .ok b
        ∧ (b = true ↔ (0 < l.getArity ∧ at_position l h 0)))
    ∧ (isAssignableFrom .UNORDERED_LINK l.type = true →
      (∃ b, l.isSource isAssignableFrom h = .ok b ∧ (b = true ↔ ∃ i, at_position l h i))
      ∧ ∀ l2 : Link, l2.type = l.type → l2.outgoing.Perm l.outgoing →
          l2.isSource isAssignableFrom h = l.isSource isAssignableFrom h)
    ∧ ((isAssignableFrom .ORDERED_LINK l.type = false
        ∧ isAssignableFrom .UNORDERED_LINK l.type = false) →
      ∃ msg, l.isSource isAssignableFrom h = .error (.InvalidParamException msg)) := by
  refine ⟨?_, ?_, ?_⟩
  · intro ho
    refine ⟨_, by unfold Link.isSource; simp only [ho, if_true]; rfl, ?_⟩
    simp only [Bool.and_eq_true, decide_eq_true_eq, at_position, Link.getArity]
    constructor
    · rintro ⟨h1, h2⟩
      exact ⟨by simpa using h1, by simpa using h1, h2⟩
    · rintro ⟨h1, _, h2⟩
      exact ⟨by simpa using h1, h2⟩
  · intro hu
    have ho : isAssignableFrom .ORDERED_LINK l.type = false := by
      cases hc : isAssignableFrom .ORDERED_LINK l.type with
      | false => rfl
      | true => exact absurd ⟨hc, hu⟩ hpart
    refine ⟨⟨_, by unfold Link.isSource; simp only [ho, hu, if_true]; rfl, ?_⟩, ?_⟩
    · exact link_scan_all_iff l h
    · intro l2 ht hp
      unfold Link.isSource
      simp only [ht, ho, hu, if_true, Bool.false_eq_true, if_false]
      rw [link_scan_all_perm l l2 h hp]
  · rintro ⟨ho, hu⟩
    exact ⟨_, by unfold Link.isSource; simp only [ho, hu]; rfl⟩

/-- C17 at a concrete input: the unordered link `Set(A, B)` and the handle B. -/
theorem isSource_handle_witness :
    ¬ (class_server_small .ORDERED_LINK link_unordered_AB.type = true
      ∧ class_server_small .UNORDERED_LINK link_unordered_AB.type = true)
    ∧ link_unordered_AB.isSource class_server_small atom_B = .ok true
    ∧ link_ordered_AB.isSource class_server_small atom_B = .ok false
    ∧ link_ordered_AB.isSource class_server_small atom_A = .ok true
    ∧ (class_server_small .UNORDERED_LINK link_unordered_AB.type = true →
      (∃ b, link_unordered_AB.isSource class_server_small atom_B = .ok b
        ∧ (b = true ↔ ∃ i, at_position link_unordered_AB atom_B i))
      ∧ ∀ l2 : Link, l2.type = link_unordered_AB.type →
          l2.outgoing.Perm link_unordered_AB.outgoing →
          l2.isSource class_server_small atom_B
            = link_unordered_AB.isSource class_server_small atom_B) :=
  ⟨by decide, rfl, rfl, rfl,
    (isSource_handle class_server_small link_unordered_AB atom_B (by decide)).2.1⟩

/-- C18: for every link and handle `h`, the class hierarchy keeping ordered and
unordered links apart: if the link's type is an `ORDERED_LINK`,
`isTarget(h)` is true exactly when `h` occurs at some position `i >= 1` of the
outgoing set; if it is an `UNORDERED_LINK`, the result is true exactly when `h`
occurs at any position, and then `isTarget(h)` equals `isSource(h)`; for a type
that is neither, `InvalidParamException` is raised. -/
theorem isTarget_handle (isAssignableFrom : AtomType → AtomType → Bool) (l : Link)
    (h : Handle)
    (hpart : ¬ (isAssignableFrom .ORDERED_LINK l.type = true
      ∧ isAssignableFrom .UNORDERED_LINK l.type = true)) :
    (isAssignableFrom .ORDERED_LINK l.type = true →
      ∃ b, l.isTarget isAssignableFrom h = .ok b
        ∧ (b = true ↔ ∃ i, 1 ≤ i ∧ at_position l h i))
    ∧ (isAssignableFrom .UNORDERED_LINK l.type = true →
      (∃ b, l.isTarget isAssignableFrom h = .ok b ∧ (b = true ↔ ∃ i, at_position l h i))
      ∧ l.isTarget isAssignableFrom h = l.isSource isAssignableFrom h)
    ∧ ((isAssignableFrom .ORDERED_LINK l.type = false
        ∧ isAssignableFrom .UNORDERED_LINK l.type = false) →
      ∃ msg, l.isTarget isAssignableFrom h = .error (.InvalidParamException msg)) := by
  refine ⟨?_, ?_, ?_⟩
  · intro ho
    exact ⟨_, by unfold Link.isTarget; simp only [ho, if_true], link_scan_tail_iff l h⟩
  · intro hu
    have ho : isAssignableFrom .ORDERED_LINK l.type = false := by
      cases hc : isAssignableFrom .ORDERED_LINK l.type with
      | false => rfl
      | true => exact absurd ⟨hc, hu⟩ hpart
    refine ⟨⟨_, by unfold Link.isTarget; simp only [ho, hu, if_true]; rfl,
      link_scan_all_iff l h⟩, ?_⟩
    unfold Link.isTarget Link.isSource
    simp only [ho, hu, if_true, Bool.false_eq_true, if_false]
  · rintro ⟨ho, hu⟩
    exact ⟨_, by unfold Link.isTarget; simp only [ho, hu]; rfl⟩

/-- C18 at a concrete input: the ordered link `Implication(A, B)`, of which B
is a target and A is not. -/
theorem isTarget_handle_witness :
    ¬ (class_server_small .ORDERED_LINK link_ordered_AB.type = true
      ∧ class_server_small .UNORDERED_LINK link_ordered_AB.type = true)
    ∧ link_ordered_AB.isTarget class_server_small atom_B = .ok true
    ∧ link_ordered_AB.isTarget class_server_small atom_A = .ok false
    ∧ link_unordered_AB.isTarget class_server_small atom_A = .ok true
    ∧ (class_server_small .ORDERED_LINK link_ordered_AB.type = true →
      ∃ b, link_ordered_AB.isTarget class_server_small atom_B = .ok b
        ∧ (b = true ↔ ∃ i, 1 ≤ i ∧ at_position link_ordered_AB atom_B i)) :=
  ⟨by decide, rfl, rfl, rfl,
    (isTarget_handle class_server_small link_ordered_AB atom_B (by decide)).1⟩

theorem isSource_int_index_error (isAssignableFrom : AtomType → AtomType → Bool) (l : Link)
    (i : Int) :
    ((∃ msg, l.isSource_int isAssignableFrom i = .error (.IndexErrorException msg))
      ↔ (i < 0 ∨ i > l.getArity))
    ∧ ((∃ msg, l.isTarget_int isAssignableFrom i = .error (.IndexErrorException msg))
      ↔ (i < 0 ∨ i > l.getArity)) := by
  constructor
  · unfold Link.isSource_int
    by_cases hi : i > l.getArity ∨ i < 0
    · simp only [hi, if_true]
      exact ⟨fun _ => hi.symm, fun _ => ⟨_, rfl⟩⟩
    · simp only [hi, if_false]
      constructor
      · rintro ⟨msg, hm⟩
        split at hm
        · cases hm
        · split at hm <;> cases hm
      · intro hc
        exact absurd hc.symm hi
  · unfold Link.isTarget_int
    by_cases hi : i > l.getArity ∨ i < 0
    · simp only [hi, if_true]
      exact ⟨fun _ => hi.symm, fun _ => ⟨_, rfl⟩⟩
    · simp only [hi, if_false]
      constructor
      · rintro ⟨msg, hm⟩
        split at hm
        · cases hm
        · split at hm <;> cases hm
      · intro hc
        exact absurd hc.symm hi

/-- C19 (the code at the failing input): the ordered link `Implication(A, B)`
has arity 2, so 2 is not a position of its outgoing set, yet `isSource(2)` and
`isTarget(2)` raise no `IndexErrorException`: the test is `i > getArity()`, and
they return false and true. -/
theorem index_arity_accepted :
    link_ordered_AB.getArity = 2
    ∧ link_ordered_AB.outgoing.get? 2 = none
    ∧ link_ordered_AB.isSource_int class_server_small 2 = .ok false
    ∧ link_ordered_AB.isTarget_int class_server_small 2 = .ok true
    ∧ link_unordered_AB.isSource_int class_server_small 2 = .ok true
    ∧ link_unordered_AB.isTarget_int class_server_small 2 = .ok true := by
  refine ⟨by decide, by decide, rfl, rfl, rfl, rfl⟩

/-! ## Substitution -/

theorem lookup_append_single (acc : HandleMap) (k v x : Handle) :
    (acc ++ [(k, v)]).lookup x
      = match acc.lookup x with
        | some g => some g
        | none => if x = k then some v else none := by
  induction acc with
  | nil =>
    by_cases hx : x = k
    · simp [List.lookup, hx]
    · have hb : (x == k) = false := by simpa using hx
      simp [List.lookup, hx, hb]
  | cons p rest ih =>
    obtain ⟨a, b⟩ := p
    by_cases hx : x = a
    · simp [List.lookup, hx]
    · have : (x == a) = false := by simpa using hx
      simp only [List.cons_append, List.lookup, this]
      exact ih

theorem map_set_new (acc : HandleMap) (k v : Handle) (hk : k ∉ acc.map Prod.fst) :
    map_set acc k v = acc ++ [(k, v)] := by
  unfold map_set
  have : ¬ (acc.any (fun p => decide (p.1 = k)) = true) := by
    simp only [List.any_eq_true, decide_eq_true_eq, not_exists, not_and]
    intro p hp hpk
    exact hk (List.mem_map.2 ⟨p, hp, hpk⟩)
  simp only [this, if_false]
  rfl

theorem lookup_filtered_fold (vars : UnorderedHandleSet) (m : HandleMap) (acc : HandleMap)
    (hnodup : (m.map Prod.fst).Nodup)
    (hdisj : ∀ k, k ∈ m.map Prod.fst → k ∉ acc.map Prod.fst) (x : Handle) :
    (m.foldl (fun filtered iv =>
        if iv.1 ∈ vars then map_set filtered iv.1 iv.2 else filtered) acc).lookup x
      = match acc.lookup x with
        | some g => some g
        | none => grounding_of vars m x := by
  induction m generalizing acc with
  | nil =>
    simp only [List.foldl_nil, grounding_of, List.lookup]
    cases acc.lookup x <;> simp
  | cons p rest ih =>
    obtain ⟨k, v⟩ := p
    simp only [List.map_cons, List.nodup_cons] at hnodup
    simp only [List.foldl_cons]
    have hkacc : k ∉ acc.map Prod.fst := hdisj k (by simp)
    by_cases hkv : k ∈ vars
    · simp only [hkv, if_true]
      rw [map_set_new acc k v hkacc]
      rw [ih (acc ++ [(k, v)]) hnodup.2 (by
        intro j hj
        simp only [List.map_append, List.map_cons, List.map_nil, List.mem_append,
          List.mem_singleton, not_or]
        refine ⟨hdisj j (by simp [hj]), ?_⟩
        rintro rfl
        exact hnodup.1 hj)]
      rw [lookup_append_single]
      cases hacc : acc.lookup x with
      | some g => rfl
      | none =>
        by_cases hx : x = k
        · subst hx
          simp [grounding_of, hkv, List.lookup]
        · have hb : (x == k) = false := by simpa using hx
          simp [grounding_of, List.lookup, hb, hx]
    · simp only [hkv, if_false]
      rw [ih acc hnodup.2 (fun j hj => hdisj j (by simp [hj]))]
      cases hacc : acc.lookup x with
      | some g => rfl
      | none =>
        simp only [grounding_of]
        by_cases hxv : x ∈ vars
        · have hx : x ≠ k := by
            rintro rfl
            exact hkv hxv
          have hb : (x == k) = false := by simpa using hx
          simp [hxv, List.lookup, hb]
        · simp [hxv]

theorem lookup_filtered (vars : UnorderedHandleSet) (m : HandleMap)
    (hnodup : (m.map Prod.fst).Nodup) (x : Handle) :
    (m.foldl (fun (filtered : HandleMap) iv =>
        if iv.1 ∈ vars then map_set filtered iv.1 iv.2 else filtered) []).lookup x
      = grounding_of vars m x := by
  rw [lookup_filtered_fold vars m [] hnodup (by simp)]
  rfl

mutual
theorem substitute_eq_replace_vars (vars : UnorderedHandleSet) (m vm : HandleMap)
    (hvm : ∀ x, vm.lookup x = grounding_of vars m x) :
    ∀ p : Handle, substitute vm p = replace_vars vars m p
  | .UNDEFINED => by simp [substitute, replace_vars]
  | .node t n => by
    unfold substitute replace_vars
    rw [hvm]
  | .link t o => by
    unfold substitute replace_vars
    rw [hvm, substitute_seq_eq_replace_vars_seq vars m vm hvm o]
theorem substitute_seq_eq_replace_vars_seq (vars : UnorderedHandleSet) (m vm : HandleMap)
    (hvm : ∀ x, vm.lookup x = grounding_of vars m x) :
    ∀ ps : List Handle, substitute_seq vm ps = replace_vars_seq vars m ps
  | [] => by simp [substitute_seq, replace_vars_seq]
  | p :: ps => by
    unfold substitute_seq replace_vars_seq
    rw [substitute_eq_replace_vars vars m vm hvm p,
      substitute_seq_eq_replace_vars_seq vars m vm hvm ps]
end

/-- C13: for every rule `BindLink(decl, body, implicand)`, every variable set
`vars` and every list of variable-grounding maps (maps, so without repeated
keys), `substitute_rule_part` returns one BindLink per grounding map, in order;
the one for the map `m` has as body and implicand the original body and
implicand with every occurrence of each variable that is both in `vars` and a
key of `m` replaced by its grounding and every other atom left unchanged, and
has `gen_sub_varlist(new body, decl)` as its variable declaration. -/
theorem substitute_rule_part_fidelity (decl body implicand : Handle)
    (vars : UnorderedHandleSet) (var_groundings : List HandleMap)
    (hmaps : ∀ m, m ∈ var_groundings → (m.map Prod.fst).Nodup) :
    substitute_rule_part (.link .BIND_LINK [decl, body, implicand]) vars var_groundings
      = var_groundings.map (fun m =>
          Handle.link .BIND_LINK
            [gen_sub_varlist (replace_vars vars m body) decl,
             replace_vars vars m body,
             replace_vars vars m implicand]) := by
  unfold substitute_rule_part
  simp only [BindLinkCast, List.map_map]
  apply List.map_congr_left
  intro m hm
  have hvm := lookup_filtered vars m (hmaps m hm)
  simp only [Function.comp]
  rw [substitute_eq_replace_vars vars m _ hvm body,
    substitute_eq_replace_vars vars m _ hvm implicand]

/-- C13 at the input of the specification: body `And(P($x), Q($x, $y))`,
implicand `R($x, $y)`, variable set `{$x}` and grounding map `{$x -> A}` give
`BindLink(VariableList($y), And(P(A), Q(A, $y)), R(A, $y))`. -/
theorem substitute_rule_part_fidelity_witness :
    (∀ m, m ∈ [[(var_x, atom_A)]] → (m.map Prod.fst).Nodup)
    ∧ substitute_rule_part
        (.link .BIND_LINK [.link .VARIABLE_LIST [var_x, var_y],
          .link .AND_LINK [pred_P var_x, pred_Q var_x var_y], pred_R var_x var_y])
        [var_x] [[(var_x, atom_A)]]
      = [.link .BIND_LINK [.link .VARIABLE_LIST [var_y],
          .link .AND_LINK [pred_P atom_A, pred_Q atom_A var_y], pred_R atom_A var_y]]
    ∧ substitute_rule_part
        (.link .BIND_LINK [.link .VARIABLE_LIST [var_x, var_y],
          .link .AND_LINK [pred_P var_x, pred_Q var_x var_y], pred_R var_x var_y])
        [var_x] [[(var_x, atom_A)]]
      = [[(var_x, atom_A)]].map (fun m =>
          Handle.link .BIND_LINK
            [gen_sub_varlist
              (replace_vars [var_x] m (.link .AND_LINK [pred_P var_x, pred_Q var_x var_y]))
              (.link .VARIABLE_LIST [var_x, var_y]),
             replace_vars [var_x] m (.link .AND_LINK [pred_P var_x, pred_Q var_x var_y]),
             replace_vars [var_x] m (pred_R var_x var_y)]) :=
  ⟨by decide, by decide,
    substitute_rule_part_fidelity (.link .VARIABLE_LIST [var_x, var_y])
      (.link .AND_LINK [pred_P var_x, pred_Q var_x var_y]) (pred_R var_x var_y)
      [var_x] [[(var_x, atom_A)]] (by decide)⟩

/-! ## Fact stores: lemmas -/

theorem contains_add_one (as : AtomSpace) (h y : Handle) :
    (as.add_one h).contains y = true ↔ (as.contains y = true ∨ y = h) := by
  unfold AtomSpace.add_one
  split
  · rename_i hc
    constructor
    · exact fun hy => Or.inl hy
    · rintro (hy | rfl)
      · exact hy
      · exact hc
  · simp only [AtomSpace.contains, Bool.or_eq_true, decide_eq_true_eq, List.mem_append,
      List.mem_singleton]
    tauto

theorem contains_foldl_add_one (l : List Handle) (as : AtomSpace) (y : Handle) :
    (l.foldl AtomSpace.add_one as).contains y = true ↔ (as.contains y = true ∨ y ∈ l) := by
  induction l generalizing as with
  | nil => simp
  | cons a rest ih =>
    simp only [List.foldl_cons, List.mem_cons]
    rw [ih, contains_add_one]
    tauto

theorem contains_add_atom (as : AtomSpace) (h y : Handle) :
    (as.add_atom h).contains y = true ↔ (as.contains y = true ∨ y ∈ all_atoms h) := by
  unfold AtomSpace.add_atom
  exact contains_foldl_add_one _ as y

theorem mem_all_atoms_self (h : Handle) (hdef : h ≠ .UNDEFINED) : h ∈ all_atoms h := by
  cases h with
  | UNDEFINED => exact absurd rfl hdef
  | node t n => simp [all_atoms]
  | link t o => simp [all_atoms]

theorem contains_foldl_add_atom (l : List Handle) (as : AtomSpace) (y : Handle) :
    (l.foldl AtomSpace.add_atom as).contains y = true
      ↔ (as.contains y = true ∨ ∃ r, r ∈ l ∧ y ∈ all_atoms r) := by
  induction l generalizing as with
  | nil => simp
  | cons a rest ih =>
    simp only [List.foldl_cons, List.mem_cons]
    rw [ih, contains_add_atom]
    constructor
    · rintro ((h | h) | ⟨r, hr, hy⟩)
      · exact Or.inl h
      · exact Or.inr ⟨a, Or.inl rfl, h⟩
      · exact Or.inr ⟨r, Or.inr hr, hy⟩
    · rintro (h | ⟨r, hr | hr, hy⟩)
      · exact Or.inl (Or.inl h)
      · subst hr; exact Or.inl (Or.inr hy)
      · exact Or.inr ⟨r, hr, hy⟩

theorem result_store_add_result_back (fc : ForwardChainer) (result : HandleSeq) (y : Handle) :
    (result_store (add_result_back fc result)).contains y = true
      ↔ ((result_store fc).contains y = true ∨ ∃ r, r ∈ result ∧ y ∈ all_atoms r) := by
  unfold add_result_back result_store
  by_cases hf : fc._search_focus_set = true
  · simp only [hf, if_true]
    exact contains_foldl_add_atom result _ y
  · simp only [hf, if_false]
    simp only [Bool.false_eq_true, if_false]
    exact contains_foldl_add_atom result _ y

theorem add_result_back_closed (fc : ForwardChainer) (result : HandleSeq) :
    (∀ y, (result_store fc).contains y = true
        → (result_store (add_result_back fc result)).contains y = true)
    ∧ (∀ x, x ∈ result → x ≠ .UNDEFINED
        → (result_store (add_result_back fc result)).contains x = true) := by
  constructor
  · intro y hy
    exact (result_store_add_result_back fc result y).2 (Or.inl hy)
  · intro x hx hdef
    exact (result_store_add_result_back fc result x).2
      (Or.inr ⟨x, hx, mem_all_atoms_self x hdef⟩)

theorem add_result_back_closed_debug (fc : ForwardChainer) (a : AtomSpace)
    (result : HandleSeq) (hf : fc._search_focus_set = true) :
    (∀ y, (result_store fc).contains y = true
        → (result_store (add_result_back { fc with _as := a } result)).contains y = true)
    ∧ (∀ x, x ∈ result → x ≠ .UNDEFINED
        → (result_store (add_result_back { fc with _as := a } result)).contains x = true) := by
  have hstore : result_store { fc with _as := a } = result_store fc := by
    unfold result_store
    simp only [hf, if_true]
  have h := add_result_back_closed { fc with _as := a } result
  rw [hstore] at h
  exact h

theorem apply_rule_handle_closed (env : Env) (fc : ForwardChainer) (rhandle : Handle) :
    (∀ y, (result_store fc).contains y = true
        → (result_store (apply_rule_handle env fc rhandle).2).contains y = true)
    ∧ (∀ x, x ∈ (apply_rule_handle env fc rhandle).1 → x ≠ .UNDEFINED
        → (result_store (apply_rule_handle env fc rhandle).2).contains x = true) := by
  unfold apply_rule_handle
  split
  · exact ⟨fun y hy => hy, fun x hx => by cases hx⟩
  · simp only
    repeat' split
    all_goals first
      | exact ⟨fun y hy => hy, fun x hx => by cases hx⟩
      | exact add_result_back_closed fc _
      | exact add_result_back_closed_debug fc _ _ (by assumption)

/-! ## The step: what it changes -/

theorem same_but_selection_draws {fc fc1 : ForwardChainer} (h : same_but_selection fc fc1)
    (d2 : Nat) : same_but_selection fc { fc1 with draws := d2 } := by
  obtain ⟨s, c, d, rfl⟩ := h
  exact ⟨s, c, d2, rfl⟩

theorem same_but_selection_cur {fc fc1 : ForwardChainer} (h : same_but_selection fc fc1)
    (c2 : Handle) : same_but_selection fc { fc1 with _cur_source := c2 } := by
  obtain ⟨s, c, d, rfl⟩ := h
  exact ⟨s, c2, d, rfl⟩

theorem choose_source_loop_selection (env : Env) (m : List (Handle × Weight)) (n : Nat)
    (fc : ForwardChainer) :
    same_but_selection fc (choose_source_loop env m n fc).2 := by
  induction n generalizing fc with
  | zero => exact ⟨fc._selected_sources, fc._cur_source, fc.draws, rfl⟩
  | succ k ih =>
    unfold choose_source_loop
    simp only
    split
    · obtain ⟨s, c, d, h⟩ := ih { fc with draws := fc.draws + 1 }
      exact ⟨s, c, d, by rw [h]⟩
    · exact ⟨set_insert fc._selected_sources
        ((tournament_select env.pick_source fc.draws m).getD .UNDEFINED),
        fc._cur_source, fc.draws + 1, rfl⟩

theorem choose_source_selection (env : Env) (fc : ForwardChainer) :
    same_but_selection fc (choose_source env fc).2 := by
  unfold choose_source
  simp only
  split
  · exact same_but_selection_draws (choose_source_loop_selection env _ _ fc) _
  · exact choose_source_loop_selection env _ _ fc

theorem selection_state_selection (env : Env) (fc : ForwardChainer) :
    same_but_selection fc (selection_state env fc)
    ∧ (selection_state env fc)._cur_source = (choose_source env fc).1
    ∧ (selection_state env fc)._selected_sources = (choose_source env fc).2._selected_sources := by
  unfold selection_state choose_rule
  exact ⟨same_but_selection_draws
    (same_but_selection_cur (choose_source_selection env fc) _) _, rfl, rfl⟩

theorem do_step_none (env : Env) (fc : ForwardChainer) (h : chosen_rule env fc = none) :
    do_step env fc = selection_state env fc := by
  unfold chosen_rule at h
  unfold do_step selection_state
  simp only [h]

theorem do_step_some (env : Env) (fc : ForwardChainer) (rule : RulePtr)
    (h : chosen_rule env fc = some rule) :
    do_step env fc =
      { (apply_rule env (selection_state env fc) rule).2 with
        _potential_sources := set_insert_range
          (apply_rule env (selection_state env fc) rule).2._potential_sources
          (apply_rule env (selection_state env fc) rule).1
        _fcstat := (apply_rule env (selection_state env fc) rule).2._fcstat.add_inference_record
          (apply_rule env (selection_state env fc) rule).2._cur_source rule
          (apply_rule env (selection_state env fc) rule).1
        _iteration := (apply_rule env (selection_state env fc) rule).2._iteration + 1 } := by
  unfold chosen_rule at h
  unfold do_step selection_state
  simp only [h]

/-- C20 (counterexample): in focus-set mode with the source A, `choose_rule`
returns the rule and the step produces D; besides the members that the claim
lists, the step changes the focus-set store, which gains D. -/
theorem do_step_changes_store :
    chosen_rule env_derive fc_focus_set = some ⟨0, rule_implication⟩
    ∧ (apply_rule env_derive (selection_state env_derive fc_focus_set)
        ⟨0, rule_implication⟩).1 = [atom_D]
    ∧ atom_D ∉ fc_focus_set._focus_set_as.atoms
    ∧ atom_D ∈ (do_step env_derive fc_focus_set)._focus_set_as.atoms
    ∧ (do_step env_derive fc_focus_set)._focus_set_as ≠ fc_focus_set._focus_set_as := by
  refine ⟨by decide, by decide, by decide, by decide, by decide⟩

/-- C20 (amended): when `choose_rule` returns a rule R for the chosen source S,
`do_step` leaves the potential-sources set equal to its previous value united
with the product set P of `apply_rule(R)`, appends exactly the record (S, R, P)
after all earlier records, adds one to the iteration count, and changes nothing
else but the current source, the selected-sources set, the two fact stores and
the state of the random generator; when `choose_rule` returns no rule, no
record is appended and the potential-sources set is unchanged. -/
theorem do_step_postcondition (env : Env) (fc : ForwardChainer) :
    (∀ rule, chosen_rule env fc = some rule →
      (∀ x, x ∈ (do_step env fc)._potential_sources
        ↔ (x ∈ fc._potential_sources
            ∨ x ∈ (apply_rule env (selection_state env fc) rule).1))
      ∧ (do_step env fc)._fcstat.records = fc._fcstat.records ++
          [⟨(choose_source env fc).1, rule, (apply_rule env (selection_state env fc) rule).1⟩]
      ∧ (do_step env fc)._iteration = fc._iteration + 1
      ∧ (do_step env fc)._cur_source = (choose_source env fc).1
      ∧ (do_step env fc)._selected_sources = (choose_source env fc).2._selected_sources
      ∧ same_settings fc (do_step env fc))
    ∧ (chosen_rule env fc = none →
      (do_step env fc)._fcstat.records = fc._fcstat.records
      ∧ (do_step env fc)._potential_sources = fc._potential_sources
      ∧ (do_step env fc)._iteration = fc._iteration
      ∧ same_settings fc (do_step env fc)) := by
  obtain ⟨⟨s, c, d, hsel⟩, hcur, hss⟩ := selection_state_selection env fc
  constructor
  · intro rule hrule
    obtain ⟨a, f, hfr⟩ := apply_rule_frame env (selection_state env fc) rule
    rw [do_step_some env fc rule hrule]
    have hcur2 : (apply_rule env (selection_state env fc) rule).2._cur_source
        = (choose_source env fc).1 := by rw [hfr]; exact hcur
    have hsel2 : (apply_rule env (selection_state env fc) rule).2._selected_sources
        = (choose_source env fc).2._selected_sources := by rw [hfr]; exact hss
    refine ⟨?_, ?_, ?_, hcur2, hsel2, ?_⟩
    · intro x
      simp only [mem_set_insert_range]
      rw [hfr, hsel]
    · simp only [FCStat.add_inference_record, hcur2]
      rw [hfr, hsel]
    · simp only
      rw [hfr, hsel]
    · unfold same_settings
      simp only
      rw [hfr, hsel]
      exact ⟨rfl, rfl, rfl, rfl, rfl, rfl, rfl⟩
  · intro hnone
    rw [do_step_none env fc hnone, hsel]
    exact ⟨rfl, rfl, rfl, rfl, rfl, rfl, rfl, rfl, rfl, rfl⟩

/-! ## Result closure -/

theorem apply_rule_fold_closed (env : Env) (fc : ForwardChainer) (derived : List Handle)
    (l : List Handle) (hl : ∀ rh, rh ∈ l → rh ∈ derived)
    (acc : UnorderedHandleSet × ForwardChainer)
    (hstore : ∀ y, (result_store fc).contains y = true
      → (result_store acc.2).contains y = true)
    (hacc : ∀ x, x ∈ acc.1 →
      (∃ (fc2 : ForwardChainer) (rh : Handle),
        rh ∈ derived ∧ x ∈ (apply_rule_handle env fc2 rh).1)
      ∧ (x ≠ .UNDEFINED → (result_store acc.2).contains x = true)) :
    (∀ y, (result_store fc).contains y = true
      → (result_store (l.foldl
          (fun acc rhandle =>
            let r := apply_rule_handle env acc.2 rhandle
            (set_insert_range acc.1 r.1, r.2)) acc).2).contains y = true)
    ∧ (∀ x, x ∈ (l.foldl
          (fun acc rhandle =>
            let r := apply_rule_handle env acc.2 rhandle
            (set_insert_range acc.1 r.1, r.2)) acc).1 →
      (∃ (fc2 : ForwardChainer) (rh : Handle),
        rh ∈ derived ∧ x ∈ (apply_rule_handle env fc2 rh).1)
      ∧ (x ≠ .UNDEFINED → (result_store (l.foldl
          (fun acc rhandle =>
            let r := apply_rule_handle env acc.2 rhandle
            (set_insert_range acc.1 r.1, r.2)) acc).2).contains x = true)) := by
  induction l generalizing acc with
  | nil => exact ⟨hstore, hacc⟩
  | cons a rest ih =>
    simp only [List.foldl_cons]
    have hc := apply_rule_handle_closed env acc.2 a
    apply ih (fun rh hrh => hl rh (List.mem_cons_of_mem _ hrh))
    · intro y hy
      exact hc.1 y (hstore y hy)
    · intro x hx
      rcases (mem_set_insert_range _ _ x).1 hx with h | h
      · exact ⟨(hacc x h).1, fun hdef => hc.1 x ((hacc x h).2 hdef)⟩
      · exact ⟨⟨acc.2, a, hl a (List.mem_cons_self _ _), h⟩, fun hdef => hc.2 x h hdef⟩

theorem apply_rule_closed (env : Env) (fc : ForwardChainer) (rule : RulePtr) :
    (∀ y, (result_store fc).contains y = true
      → (result_store (apply_rule env fc rule).2).contains y = true)
    ∧ (∀ x, x ∈ (apply_rule env fc rule).1 →
      (∃ (fc2 : ForwardChainer) (rh : Handle),
        rh ∈ derive_rules env fc._cur_source rule ∧ x ∈ (apply_rule_handle env fc2 rh).1)
      ∧ (x ≠ .UNDEFINED → (result_store (apply_rule env fc rule).2).contains x = true)) := by
  unfold apply_rule
  simp only
  split
  · exact ⟨fun y hy => hy, fun x hx => by cases hx⟩
  · exact apply_rule_fold_closed env fc (derive_rules env fc._cur_source rule) _
      (fun rh h => h) ([], fc) (fun y hy => hy) (fun x hx => by cases hx)

theorem do_step_records_closed (env : Env) (fc : ForwardChainer)
    (h : records_closed env fc) : records_closed env (do_step env fc) := by
  obtain ⟨⟨s, c, d, hsel⟩, _, _⟩ := selection_state_selection env fc
  have hstore_sel : result_store (selection_state env fc) = result_store fc := by
    rw [hsel]; rfl
  have hrec_sel : (selection_state env fc)._fcstat = fc._fcstat := by
    rw [hsel]
  cases hrule : chosen_rule env fc with
  | none =>
    rw [do_step_none env fc hrule]
    intro r hr x hx
    rw [hrec_sel] at hr
    rw [hstore_sel]
    exact h r hr x hx
  | some rule =>
    rw [do_step_some env fc rule hrule]
    obtain ⟨a, f, hfr⟩ := apply_rule_frame env (selection_state env fc) rule
    have hcl := apply_rule_closed env (selection_state env fc) rule
    have hfc : (apply_rule env (selection_state env fc) rule).2._fcstat = fc._fcstat := by
      rw [hfr]; exact hrec_sel
    have hcur : (apply_rule env (selection_state env fc) rule).2._cur_source
        = (selection_state env fc)._cur_source := by rw [hfr]
    intro r hr x hx
    simp only [FCStat.add_inference_record, hfc, List.mem_append, List.mem_singleton] at hr
    have hstore : ∀ y, (result_store (apply_rule env (selection_state env fc) rule).2).contains y
        = true → (result_store
      { (apply_rule env (selection_state env fc) rule).2 with
        _potential_sources := set_insert_range
          (apply_rule env (selection_state env fc) rule).2._potential_sources
          (apply_rule env (selection_state env fc) rule).1
        _fcstat := (apply_rule env (selection_state env fc) rule).2._fcstat.add_inference_record
          (apply_rule env (selection_state env fc) rule).2._cur_source rule
          (apply_rule env (selection_state env fc) rule).1
        _iteration := (apply_rule env (selection_state env fc) rule).2._iteration + 1 }).contains y
        = true := fun y hy => hy
    rcases hr with hr | hr
    · refine ⟨(h r hr x hx).1, fun hdef => hstore x (hcl.1 x ?_)⟩
      rw [hstore_sel]
      exact (h r hr x hx).2 hdef
    · subst hr
      simp only at hx
      obtain ⟨⟨fc2, rh, hrh, hxr⟩, hin⟩ := hcl.2 x hx
      refine ⟨⟨fc2, rh, Or.inr ?_, hxr⟩, fun hdef => hstore x (hin hdef)⟩
      simp only [hcur]
      exact hrh

theorem apply_all_rules_body_records_closed (env : Env) (fc : ForwardChainer) (rule : RulePtr)
    (h : records_closed env fc) : records_closed env (apply_all_rules_body env fc rule) := by
  obtain ⟨_, _, _, hrec, _⟩ := apply_all_rules_body_frame env fc rule
  have hc := apply_rule_handle_closed env fc rule.get_handle
  have hstore : result_store (apply_all_rules_body env fc rule)
      = result_store (apply_rule_handle env fc rule.get_handle).2 := by
    unfold apply_all_rules_body update_potential_sources result_store
    rfl
  intro r hr x hx
  rw [hrec, List.mem_append, List.mem_singleton] at hr
  rw [hstore]
  rcases hr with hr | hr
  · exact ⟨(h r hr x hx).1, fun hdef => hc.1 x ((h r hr x hx).2 hdef)⟩
  · subst hr
    simp only [mem_set_insert_range, List.not_mem_nil, false_or] at hx
    exact ⟨⟨fc, rule.get_handle, Or.inl rfl, hx⟩, fun hdef => hc.2 x hx hdef⟩

theorem apply_all_rules_loop_records_closed (env : Env) (l : List RulePtr)
    (fc : ForwardChainer) (h : records_closed env fc) :
    records_closed env (apply_all_rules_loop env l fc) := by
  induction l generalizing fc with
  | nil => exact h
  | cons rule rest ih =>
    unfold apply_all_rules_loop
    exact ih _ (apply_all_rules_body_records_closed env fc rule h)

theorem do_chain_loop_records_closed (env : Env) (fuel : Nat) (fc : ForwardChainer)
    (r : ForwardChainer × Nat) (hr : do_chain_loop env fuel fc = some r)
    (h : records_closed env fc) : records_closed env r.1 := by
  induction fuel generalizing fc r with
  | zero =>
    unfold do_chain_loop at hr
    split at hr
    · simp only [Option.some.injEq] at hr
      rw [← hr]; exact h
    · simp at hr
  | succ n ih =>
    unfold do_chain_loop at hr
    split at hr
    · simp only [Option.some.injEq] at hr
      rw [← hr]; exact h
    · obtain ⟨q, hq, hqr⟩ := Option.map_eq_some'.1 hr
      rw [← hqr]
      exact ih _ q hq (do_step_records_closed env fc h)

theorem init_fcstat (fc : ForwardChainer) (hsource : Handle) (focus_set : HandleSeq)
    (fc2 : ForwardChainer) (h : init fc hsource focus_set = .ok fc2) :
    fc2._fcstat = fc._fcstat := by
  unfold init at h
  split at h
  · cases h
  · simp only [update_potential_sources] at h
    split at h
    · simp only [Except.ok.injEq] at h
      rw [← h]
    · simp only [Except.ok.injEq] at h
      rw [← h]

theorem reachable_records_closed (env : Env) (fc : ForwardChainer) (h : reachable env fc) :
    records_closed env fc := by
  induction h with
  | construct as cr hs focus_set fc hnew =>
    have := init_fcstat _ _ _ _ hnew
    intro r hr
    rw [this] at hr
    simp [ForwardChainer.members] at hr
  | step fc _ ih => exact do_step_records_closed env fc ih
  | all_rules fc _ ih => exact apply_all_rules_loop_records_closed env _ fc ih
  | chain fc fuel r _ hr ih =>
    unfold do_chain at hr
    split at hr
    · simp only [Option.some.injEq] at hr
      rw [← hr]
      exact apply_all_rules_loop_records_closed env _ fc ih
    · exact do_chain_loop_records_closed env fuel fc r hr ih

theorem mem_get_all_products (records : List InferenceRecord) (acc : UnorderedHandleSet)
    (x : Handle) :
    x ∈ records.foldl (fun all r => set_insert_range all r.product) acc
      ↔ (x ∈ acc ∨ ∃ r, r ∈ records ∧ x ∈ r.product) := by
  induction records generalizing acc with
  | nil => simp
  | cons a rest ih =>
    simp only [List.foldl_cons, List.mem_cons]
    rw [ih, mem_set_insert_range]
    constructor
    · rintro ((h | h) | ⟨r, hr, hx⟩)
      · exact Or.inl h
      · exact Or.inr ⟨a, Or.inl rfl, h⟩
      · exact Or.inr ⟨r, Or.inr hr, hx⟩
    · rintro (h | ⟨r, hr | hr, hx⟩)
      · exact Or.inl (Or.inl h)
      · subst hr; exact Or.inl (Or.inr hx)
      · exact Or.inr ⟨r, hr, hx⟩

theorem fc_constructed_A_eq :
    ForwardChainer.new ⟨[atom_A, atom_B], []⟩ ⟨[rule_implication], 1, false⟩ atom_A []
      = .ok fc_constructed_A := rfl

/-- C12: in every state reachable from construction by `do_step`,
`apply_all_rules` and `do_chain`, every handle in `get_chaining_result()` is
a product of some record and was returned by a call of `apply_rule(Handle)` (on
the handle of the record's rule or on a rule derived from it), and, being a
defined handle, is present in the focus-set store when a focus set is searched
and in the global store otherwise. -/
theorem result_closure (env : Env) (fc : ForwardChainer) (h : reachable env fc) :
    ∀ x, x ∈ get_chaining_result fc →
      (∃ r, r ∈ fc._fcstat.records ∧ x ∈ r.product ∧ returned_by_apply_rule env r x)
      ∧ (x ≠ .UNDEFINED →
          (if fc._search_focus_set then fc._focus_set_as else fc._as).contains x = true) := by
  intro x hx
  have hcl := reachable_records_closed env fc h
  unfold get_chaining_result FCStat.get_all_products at hx
  rw [mem_get_all_products] at hx
  simp only [List.not_mem_nil, false_or] at hx
  obtain ⟨r, hr, hxr⟩ := hx
  exact ⟨⟨r, hr, hxr, (hcl r hr x hxr).1⟩, (hcl r hr x hxr).2⟩

/-- C12 at a concrete input: the state after one step from the chainer
constructed with source A, whose chaining result is D. -/
theorem result_closure_witness :
    reachable env_derive (do_step env_derive fc_constructed_A)
    ∧ get_chaining_result (do_step env_derive fc_constructed_A) = [atom_D]
    ∧ ∀ x, x ∈ get_chaining_result (do_step env_derive fc_constructed_A) →
      (∃ r, r ∈ (do_step env_derive fc_constructed_A)._fcstat.records ∧ x ∈ r.product
        ∧ returned_by_apply_rule env_derive r x)
      ∧ (x ≠ .UNDEFINED →
          (if (do_step env_derive fc_constructed_A)._search_focus_set
            then (do_step env_derive fc_constructed_A)._focus_set_as
            else (do_step env_derive fc_constructed_A)._as).contains x = true) :=
  ⟨reachable.step _ (reachable.construct _ _ _ _ _ fc_constructed_A_eq), by decide,
    result_closure env_derive (do_step env_derive fc_constructed_A)
      (reachable.step _ (reachable.construct _ _ _ _ _ fc_constructed_A_eq))⟩

/-! ## Further evaluations on small inputs -/

theorem derive_rules_example :
    derive_rules env_derive atom_A ⟨0, rule_implication⟩
      = [.link .BIND_LINK [.link .VARIABLE_LIST [var_y], implication atom_A var_y, var_y]]
    ∧ derive_rules env_no_match atom_A ⟨0, rule_implication⟩ = [] := by
  decide

theorem index_valid_positions (isAssignableFrom : AtomType → AtomType → Bool) (l : Link)
    (i : Int) (h0 : 0 ≤ i) (hn : i < l.getArity) :
    (isAssignableFrom .ORDERED_LINK l.type = true →
      l.isSource_int isAssignableFrom i = .ok (decide (i = 0))
      ∧ l.isTarget_int isAssignableFrom i = .ok (decide (i ≠ 0)))
    ∧ (isAssignableFrom .ORDERED_LINK l.type = false →
      isAssignableFrom .UNORDERED_LINK l.type = true →
      l.isSource_int isAssignableFrom i = .ok true
      ∧ l.isTarget_int isAssignableFrom i = .ok true) := by
  have hi : ¬ (i > l.getArity ∨ i < 0) := by omega
  constructor
  · intro ho
    unfold Link.isSource_int Link.isTarget_int
    simp only [hi, ho, if_false, if_true, and_self]
  · intro ho hu
    unfold Link.isSource_int Link.isTarget_int
    simp only [hi, ho, hu, if_false, if_true, Bool.false_eq_true, and_self]

/-! ## The variable set of a term-grounding entry -/

/-- C21 (the code at the failing input): the rule `Q($x, $y) => R($x, $y)`, the
source A and a match whose term groundings are `$x -> A` and `$y -> A`.  The
`FindAtoms` object is declared before the loops and `search_set` adds to its
`varset`, so for the second entry, with key `$y`, the variable set passed to
`substitute_rule_part` is `{$x, $y}` and not `{$y}`: the derived rule is
`Q(A, A) => R(A, A)` instead of `Q($x, A) => R($x, A)`. -/
theorem derive_rules_varset_accumulates :
    find_rec var_y = [var_y]
    ∧ (derive_rules_entry atom_A ⟨0, rule_Q⟩ [[(var_x, atom_A), (var_y, atom_A)]]
        (FindAtoms.new, []) (var_x, atom_A)).1.varset = [var_x]
    ∧ (derive_rules_entry atom_A ⟨0, rule_Q⟩ [[(var_x, atom_A), (var_y, atom_A)]]
        (derive_rules_entry atom_A ⟨0, rule_Q⟩ [[(var_x, atom_A), (var_y, atom_A)]]
          (FindAtoms.new, []) (var_x, atom_A))
        (var_y, atom_A)).1.varset = [var_x, var_y]
    ∧ derive_rules_term env_two_groundings atom_A (pred_Q var_x var_y) ⟨0, rule_Q⟩
        = [.link .BIND_LINK [.link .VARIABLE_LIST [var_y], pred_Q atom_A var_y,
              pred_R atom_A var_y],
           .link .BIND_LINK [.link .VARIABLE_LIST [], pred_Q atom_A atom_A,
              pred_R atom_A atom_A]]
    ∧ substitute_rule_part (RulePtr.get_handle ⟨0, rule_Q⟩) [var_y]
          [[(var_x, atom_A), (var_y, atom_A)]]
        = [.link .BIND_LINK [.link .VARIABLE_LIST [var_x], pred_Q var_x atom_A,
              pred_R var_x atom_A]]
    ∧ Handle.link .BIND_LINK [.link .VARIABLE_LIST [var_x], pred_Q var_x atom_A,
          pred_R var_x atom_A]
        ∉ derive_rules_term env_two_groundings atom_A (pred_Q var_x var_y) ⟨0, rule_Q⟩ := by
  refine ⟨by decide, by decide, by decide, by decide, by decide, by decide⟩

theorem derive_rules_first_entry_varset (sourcecpy : Handle) (rule : RulePtr)
    (vg : List HandleMap) (k : Handle) (x : Handle) :
    x ∈ (derive_rules_entry sourcecpy rule vg (FindAtoms.new, []) (k, sourcecpy)).1.varset
      ↔ (x.isVariableNode = true ∧ occurs_in x k = true) := by
  unfold derive_rules_entry
  simp only [if_true]
  exact mem_varset_search_set k x

/-! ## A single declaration as variable declaration -/

theorem gen_sub_varlist_bare_node (p : Handle) (t : AtomType) (n : String) :
    gen_sub_varlist p (.node t n)
      = .link .VARIABLE_LIST
          (if declaration_occurs p (.node t n) = true then [.node t n] else []) := by
  unfold gen_sub_varlist
  simp only [Handle.isLink, Bool.false_eq_true, if_false]
  congr 1
  rw [List.filter_congr (fun m _ => gen_sub_varlist_keeps p m)]
  by_cases h : declaration_occurs p (.node t n) = true
  · simp [h]
  · simp [h]

/-- C22 (the code at the failing input): the pattern `P($x)` and the single
declaration `TypedVariableLink($x, ConceptNode)`, whose variable occurs in the
pattern.  The declaration is a link, so `LinkCast(parent_varlist)` succeeds and
its outgoing set `($x, ConceptNode)` is walked as if it were a variable list:
the result is `VariableList($x)`, without the type restriction, and not
`VariableList(TypedVariableLink($x, ConceptNode))`. -/
theorem gen_sub_varlist_single_typed_declaration :
    declaration_occurs (pred_P var_x) (.link .TYPED_VARIABLE_LINK [var_x, type_concept]) = true
    ∧ gen_sub_varlist (pred_P var_x) (.link .TYPED_VARIABLE_LINK [var_x, type_concept])
        = .link .VARIABLE_LIST [var_x]
    ∧ gen_sub_varlist (pred_P var_x) (.link .TYPED_VARIABLE_LINK [var_x, type_concept])
        ≠ .link .VARIABLE_LIST [.link .TYPED_VARIABLE_LINK [var_x, type_concept]]
    ∧ gen_sub_varlist (pred_P var_x) var_x = .link .VARIABLE_LIST [var_x]
    ∧ gen_sub_varlist (pred_P var_x) var_y = .link .VARIABLE_LIST [] := by
  refine ⟨by decide, by decide, by decide, by decide, by decide⟩

/-! ## Equality and hash code of links -/

theorem link_equals_loop_iff (l olink : Link) (n i : Nat) :
    l.equals_loop olink i n = true
      ↔ ∀ j, i ≤ j → j < i + n → l.outgoing.get? j = olink.outgoing.get? j := by
  induction n generalizing i with
  | zero =>
    unfold Link.equals_loop
    simp only [true_iff]
    intro j h1 h2
    omega
  | succ k ih =>
    unfold Link.equals_loop
    by_cases hi : l.outgoing.get? i = olink.outgoing.get? i
    · simp only [ne_eq, hi, not_true_eq_false, if_false]
      rw [ih]
      constructor
      · intro h j h1 h2
        by_cases hj : j = i
        · subst hj; exact hi
        · exact h j (by omega) (by omega)
      · intro h j h1 h2
        exact h j (by omega) (by omega)
    · simp only [ne_eq, hi, not_false_eq_true, if_true, Bool.false_eq_true, false_iff]
      intro h
      exact hi (h i (le_refl _) (by omega))

theorem link_equals_iff (a b : Link) :
    a.equals b = true ↔ (a.type = b.type ∧ a.outgoing = b.outgoing) := by
  unfold Link.equals Link.getArity
  by_cases ht : a.type = b.type
  · by_cases hl : a.outgoing.length = b.outgoing.length
    · have hl2 : ((a.outgoing.length : Int) = (b.outgoing.length : Int)) := by
        exact_mod_cast hl
      simp only [ne_eq, ht, not_true_eq_false, if_false, hl2, true_and]
      rw [link_equals_loop_iff]
      constructor
      · intro h
        apply List.ext_get?
        intro j
        by_cases hj : j < a.outgoing.length
        · exact h j (Nat.zero_le _) (by omega)
        · rw [List.get?_eq_none.2 (by omega), List.get?_eq_none.2 (by omega)]
      · intro h j _ _
        rw [h]
    · have hl2 : ¬ ((a.outgoing.length : Int) = (b.outgoing.length : Int)) := by
        exact_mod_cast hl
      simp only [ne_eq, ht, not_true_eq_false, if_false, hl2, not_false_eq_true, if_true,
        Bool.false_eq_true, true_and, false_iff]
      intro h
      exact hl (by rw [h])
  · simp only [ne_eq, ht, not_false_eq_true, if_true, Bool.false_eq_true, false_and]

theorem link_equals_iff_eq (a b : Link) : a.equals b = true ↔ a = b := by
  rw [link_equals_iff]
  constructor
  · rintro ⟨h1, h2⟩
    cases a; cases b
    simp only at h1 h2
    rw [h1, h2]
  · rintro rfl
    exact ⟨rfl, rfl⟩

/-- C25: for every two links `a` and `b`, if `a.equals(b)` is true, which it is
exactly when the two have the same type, the same arity and position by
position the same outgoing handles, then `a.hashCode() = b.hashCode()`; and
`equals` is reflexive, symmetric and transitive on links. -/
theorem equals_hashCode_consistent (type_code : AtomType → Nat) (handle_long : Handle → Nat)
    (a b c : Link) :
    (a.equals b = true ↔
      (a.type = b.type ∧ a.getArity = b.getArity
        ∧ ∀ i, a.outgoing.get? i = b.outgoing.get? i))
    ∧ (a.equals b = true →
        a.hashCode type_code handle_long = b.hashCode type_code handle_long)
    ∧ a.equals a = true
    ∧ (a.equals b = true → b.equals a = true)
    ∧ (a.equals b = true → b.equals c = true → a.equals c = true) := by
  refine ⟨?_, ?_, ?_, ?_, ?_⟩
  · rw [link_equals_iff]
    constructor
    · rintro ⟨h1, h2⟩
      exact ⟨h1, by unfold Link.getArity; rw [h2], fun i => by rw [h2]⟩
    · rintro ⟨h1, _, h3⟩
      exact ⟨h1, List.ext_get? h3⟩
  · intro h
    rw [(link_equals_iff_eq a b).1 h]
  · exact (link_equals_iff_eq a a).2 rfl
  · intro h
    exact (link_equals_iff_eq b a).2 ((link_equals_iff_eq a b).1 h).symm
  · intro h1 h2
    exact (link_equals_iff_eq a c).2
      (((link_equals_iff_eq a b).1 h1).trans ((link_equals_iff_eq b c).1 h2))

theorem equals_hashCode_example :
    link_ordered_AB.equals ⟨.other 7, [atom_A, atom_B]⟩ = true
    ∧ link_ordered_AB.equals link_unordered_AB = false
    ∧ link_ordered_AB.equals ⟨.other 7, [atom_B, atom_A]⟩ = false
    ∧ link_ordered_AB.hashCode (fun _ => 7)
        (fun h => if h = atom_A then 5 else 9) = 528 := by
  refine ⟨by decide, by decide, by decide, by decide⟩

/-! ## Termination of rule selection -/

theorem choose_rule_rounds_draws (env : Env) (source : Handle) (fuel : Nat) (m : RuleMap)
    (draws : Nat) :
    (choose_rule_loop env source fuel m draws).2
      = draws + (choose_rule_rounds env source fuel m draws).length := by
  induction fuel generalizing m draws with
  | zero => rfl
  | succ n ih =>
    unfold choose_rule_loop choose_rule_rounds
    cases tournament_select env.pick_rule draws m with
    | none => rfl
    | some temp =>
      simp only
      split
      · rfl
      · rw [ih]
        simp only [List.length_cons]
        omega

theorem choose_rule_rounds_keys (env : Env) (source : Handle) (fuel : Nat) (m : RuleMap)
    (draws : Nat) :
    ∀ r, r ∈ choose_rule_rounds env source fuel m draws → r.1 ∈ m.map Prod.fst := by
  induction fuel generalizing m draws with
  | zero =>
    intro r hr
    simp [choose_rule_rounds] at hr
  | succ n ih =>
    intro r hr
    unfold choose_rule_rounds at hr
    cases hsel : tournament_select env.pick_rule draws m with
    | none => simp [hsel] at hr
    | some temp =>
      have hkey := tournament_select_mem _ _ _ _ hsel
      simp only [hsel] at hr
      split at hr
      · simp only [List.mem_singleton] at hr
        rw [hr]; exact hkey
      · rcases List.mem_cons.1 hr with h | h
        · rw [h]; exact hkey
        · exact ((mem_keys_map_erase m temp r.1).1 (ih _ _ r h)).1

theorem choose_rule_rounds_nodup (env : Env) (source : Handle) (fuel : Nat) (m : RuleMap)
    (draws : Nat) :
    ((choose_rule_rounds env source fuel m draws).map Prod.fst).Nodup := by
  induction fuel generalizing m draws with
  | zero => simp [choose_rule_rounds]
  | succ n ih =>
    unfold choose_rule_rounds
    cases tournament_select env.pick_rule draws m with
    | none => simp
    | some temp =>
      simp only
      split
      · simp
      · simp only [List.map_cons, List.nodup_cons]
        refine ⟨?_, ih _ _⟩
        intro hmem
        obtain ⟨r, hr, hrt⟩ := List.mem_map.1 hmem
        have := choose_rule_rounds_keys env source n _ _ r hr
        rw [hrt] at this
        exact ((mem_keys_map_erase m temp temp).1 this).2 rfl

theorem choose_rule_rounds_length (env : Env) (source : Handle) (fuel : Nat) (m : RuleMap)
    (draws : Nat) :
    (choose_rule_rounds env source fuel m draws).length ≤ m.length := by
  induction fuel generalizing m draws with
  | zero => simp [choose_rule_rounds]
  | succ n ih =>
    unfold choose_rule_rounds
    cases hsel : tournament_select env.pick_rule draws m with
    | none => simp
    | some temp =>
      have hkey := tournament_select_mem _ _ _ _ hsel
      have hlt := length_map_erase_lt m temp hkey
      simp only
      split
      · simp only [List.length_singleton]
        omega
      · simp only [List.length_cons]
        have := ih (map_erase m temp) (draws + 1)
        omega

theorem unify_round_initial (env : Env) (source : Handle) (temp : RulePtr)
    (terms : List Handle) :
    ∃ rest, unify_round env source temp terms ++ rest = terms := by
  induction terms with
  | nil => exact ⟨[], rfl⟩
  | cons t ts ih =>
    unfold unify_round
    split
    · exact ⟨ts, rfl⟩
    · obtain ⟨rest, hrest⟩ := ih
      exact ⟨rest, by simp [hrest]⟩

theorem choose_rule_rounds_terms (env : Env) (source : Handle) (fuel : Nat) (m : RuleMap)
    (draws : Nat) :
    ∀ r, r ∈ choose_rule_rounds env source fuel m draws →
      ∃ rest, r.2 ++ rest = r.1.get_implicant_seq := by
  induction fuel generalizing m draws with
  | zero =>
    intro r hr
    simp [choose_rule_rounds] at hr
  | succ n ih =>
    intro r hr
    unfold choose_rule_rounds at hr
    cases hsel : tournament_select env.pick_rule draws m with
    | none => simp [hsel] at hr
    | some temp =>
      simp only [hsel] at hr
      split at hr
      · simp only [List.mem_singleton] at hr
        rw [hr]; exact unify_round_initial env source temp _
      · rcases List.mem_cons.1 hr with h | h
        · rw [h]; exact unify_round_initial env source temp _
        · exact ih _ _ r h

theorem choose_rule_rounds_nil (env : Env) (source : Handle) (fuel draws : Nat) :
    choose_rule_rounds env source fuel [] draws = [] := by
  cases fuel with
  | zero => rfl
  | succ n =>
    unfold choose_rule_rounds
    simp [tournament_select]

theorem choose_rule_rounds_fuel (env : Env) (source : Handle) (fuel1 fuel2 : Nat)
    (m : RuleMap) (draws : Nat) (h1 : m.length ≤ fuel1) (h2 : m.length ≤ fuel2) :
    choose_rule_rounds env source fuel1 m draws
      = choose_rule_rounds env source fuel2 m draws := by
  induction fuel1 generalizing fuel2 m draws with
  | zero =>
    have hm : m = [] := List.length_eq_zero.1 (Nat.le_zero.1 h1)
    subst hm
    rw [choose_rule_rounds_nil, choose_rule_rounds_nil]
  | succ n ih =>
    cases fuel2 with
    | zero =>
      have hm : m = [] := List.length_eq_zero.1 (Nat.le_zero.1 h2)
      subst hm
      rw [choose_rule_rounds_nil, choose_rule_rounds_nil]
    | succ k =>
      unfold choose_rule_rounds
      cases hsel : tournament_select env.pick_rule draws m with
      | none => rfl
      | some temp =>
        have hkey := tournament_select_mem _ _ _ _ hsel
        have hlt := length_map_erase_lt m temp hkey
        simp only
        split
        · rfl
        · rw [ih k _ _ (by omega) (by omega)]

theorem choose_rule_rounds_last (env : Env) (source : Handle) (fuel : Nat) (m : RuleMap)
    (draws : Nat) (rule : RulePtr)
    (h : (choose_rule_loop env source fuel m draws).1 = some rule) :
    (choose_rule_rounds env source fuel m draws).getLast?.map Prod.fst = some rule := by
  induction fuel generalizing m draws with
  | zero => simp [choose_rule_loop] at h
  | succ n ih =>
    unfold choose_rule_loop at h
    unfold choose_rule_rounds
    cases hsel : tournament_select env.pick_rule draws m with
    | none => simp [hsel] at h
    | some temp =>
      simp only [hsel] at h
      simp only
      split
      · rename_i hu
        simp only [hu, if_true, Option.some.injEq] at h
        simp [h]
      · rename_i hu
        simp only [hu, if_false] at h
        have := ih _ _ h
        cases hl : choose_rule_rounds env source n (map_erase m temp) (draws + 1) with
        | nil => simp [hl] at this
        | cons a rest =>
          rw [hl] at this
          rw [List.getLast?_cons_cons]
          exact this

theorem keys_map_set_nodup {K V : Type} [DecidableEq K] (m : List (K × V)) (k : K) (v : V)
    (h : (m.map Prod.fst).Nodup) : ((map_set m k v).map Prod.fst).Nodup := by
  unfold map_set
  split
  · have : (m.map (fun p => if p.1 = k then (k, v) else p)).map Prod.fst = m.map Prod.fst := by
      rw [List.map_map]
      apply List.map_congr_left
      intro p _
      simp only [Function.comp]
      split
      · rename_i hp; exact hp.symm
      · rfl
    rw [this]; exact h
  · rename_i hany
    simp only [List.any_eq_true, decide_eq_true_eq, not_exists, not_and] at hany
    rw [List.map_append, List.nodup_append]
    refine ⟨h, by simp, ?_⟩
    intro a ha hb
    simp only [List.map_cons, List.map_nil, List.mem_singleton] at hb
    obtain ⟨p, hp, hpa⟩ := List.mem_map.1 ha
    exact hany p hp (by rw [hpa, hb])

theorem keys_rule_weight_nodup (rules : List RulePtr) (m : RuleMap)
    (h : (m.map Prod.fst).Nodup) :
    ((rules.foldl (fun (m : RuleMap) r => map_set m r r.get_weight) m).map Prod.fst).Nodup := by
  induction rules generalizing m with
  | nil => exact h
  | cons r rest ih =>
    simp only [List.foldl_cons]
    exact ih _ (keys_map_set_nodup m r _ h)

theorem rule_weight_length (rules : List RulePtr) :
    (rules.foldl (fun (m : RuleMap) r => map_set m r r.get_weight) []).length
      ≤ rules.dedup.length := by
  have hnd := keys_rule_weight_nodup rules [] (by simp)
  have hsub : (rules.foldl (fun (m : RuleMap) r => map_set m r r.get_weight) []).map Prod.fst
      ⊆ rules.dedup := by
    intro x hx
    exact List.mem_dedup.2 ((mem_keys_rule_weight rules x).1 hx)
  have := (List.subperm_of_subset hnd hsub).length_le
  simpa using this

/-- C23: for every rule list, every source and every sampler (which returns a
key of the non-empty map it is given), the loop of `choose_rule` has ended
after at most as many rounds as the weight map has keys (allowing more rounds
changes nothing); the number of tournament selections is the number of rounds
and is at most the number of distinct rules; no rule is selected in two
rounds; in a round `unify` is called on an initial part of the rule's
implicant sequence, each term position at most once; and a rule that is
returned is the rule of the last round. -/
theorem choose_rule_terminates (env : Env) (fc : ForwardChainer) (source : Handle) :
    (∀ fuel, (fc._rules.foldl (fun (m : RuleMap) r => map_set m r r.get_weight) []).length
        ≤ fuel →
      choose_rule_loop env source fuel
          (fc._rules.foldl (fun (m : RuleMap) r => map_set m r r.get_weight) []) fc.draws
        = ((choose_rule env fc source).1, (choose_rule env fc source).2.draws)
      ∧ choose_rule_rounds env source fuel
          (fc._rules.foldl (fun (m : RuleMap) r => map_set m r r.get_weight) []) fc.draws
        = choose_rule_rounds env source
          (fc._rules.foldl (fun (m : RuleMap) r => map_set m r r.get_weight) []).length
          (fc._rules.foldl (fun (m : RuleMap) r => map_set m r r.get_weight) []) fc.draws)
    ∧ (choose_rule env fc source).2.draws = fc.draws
        + (choose_rule_rounds env source
            (fc._rules.foldl (fun (m : RuleMap) r => map_set m r r.get_weight) []).length
            (fc._rules.foldl (fun (m : RuleMap) r => map_set m r r.get_weight) [])
            fc.draws).length
    ∧ (choose_rule_rounds env source
          (fc._rules.foldl (fun (m : RuleMap) r => map_set m r r.get_weight) []).length
          (fc._rules.foldl (fun (m : RuleMap) r => map_set m r r.get_weight) [])
          fc.draws).length ≤ fc._rules.dedup.length
    ∧ ((choose_rule_rounds env source
          (fc._rules.foldl (fun (m : RuleMap) r => map_set m r r.get_weight) []).length
          (fc._rules.foldl (fun (m : RuleMap) r => map_set m r r.get_weight) [])
          fc.draws).map Prod.fst).Nodup
    ∧ (∀ r, r ∈ choose_rule_rounds env source
          (fc._rules.foldl (fun (m : RuleMap) r => map_set m r r.get_weight) []).length
          (fc._rules.foldl (fun (m : RuleMap) r => map_set m r r.get_weight) [])
          fc.draws →
        r.1 ∈ fc._rules ∧ ∃ rest, r.2 ++ rest = r.1.get_implicant_seq)
    ∧ (∀ rule, (choose_rule env fc source).1 = some rule →
        (choose_rule_rounds env source
          (fc._rules.foldl (fun (m : RuleMap) r => map_set m r r.get_weight) []).length
          (fc._rules.foldl (fun (m : RuleMap) r => map_set m r r.get_weight) [])
          fc.draws).getLast?.map Prod.fst = some rule) := by
  refine ⟨?_, ?_, ?_, ?_, ?_, fun rule h => choose_rule_rounds_last env source _ _ _ rule h⟩
  · intro fuel hfuel
    constructor
    · rw [choose_rule_loop_fuel env source fuel _ _ _ hfuel (le_refl _)]
      rfl
    · exact choose_rule_rounds_fuel env source fuel _ _ _ hfuel (le_refl _)
  · exact choose_rule_rounds_draws env source _ _ _
  · exact le_trans (choose_rule_rounds_length env source _ _ _) (rule_weight_length fc._rules)
  · exact choose_rule_rounds_nodup env source _ _ _
  · intro r hr
    exact ⟨(mem_keys_rule_weight fc._rules r.1).1 (choose_rule_rounds_keys env source _ _ _ r hr),
      choose_rule_rounds_terms env source _ _ _ r hr⟩

/-! ## Declaration coverage of derived rules -/

theorem gen_sub_varlist_of_list (p : Handle) (t : AtomType) (d : HandleSeq) :
    gen_sub_varlist p (.link t d)
      = .link .VARIABLE_LIST (d.filter (fun m => declaration_occurs p m)) := by
  unfold gen_sub_varlist
  simp only [Handle.isLink, if_true, Handle.getOutgoingSet]
  congr 1
  apply List.filter_congr
  intro m _
  exact gen_sub_varlist_keeps p m

theorem lookup_mem_keys (vm : HandleMap) (k g : Handle) (h : vm.lookup k = some g) :
    k ∈ vm.map Prod.fst := by
  induction vm with
  | nil => simp [List.lookup] at h
  | cons p rest ih =>
    obtain ⟨a, b⟩ := p
    by_cases hk : k = a
    · simp [hk]
    · have hb : (k == a) = false := by simpa using hk
      simp only [List.lookup, hb] at h
      simp only [List.map_cons, List.mem_cons]
      exact Or.inr (ih h)

theorem keys_filtered_fold (vars : UnorderedHandleSet) (m acc : HandleMap) (x : Handle)
    (hx : x ∈ (m.foldl (fun filtered iv =>
        if iv.1 ∈ vars then map_set filtered iv.1 iv.2 else filtered) acc).map Prod.fst) :
    x ∈ acc.map Prod.fst ∨ x ∈ vars := by
  induction m generalizing acc with
  | nil => exact Or.inl hx
  | cons p rest ih =>
    simp only [List.foldl_cons] at hx
    by_cases hp : p.1 ∈ vars
    · simp only [hp, if_true] at hx
      rcases ih _ hx with h | h
      · rcases (mem_keys_map_set acc p.1 p.2 x).1 h with h2 | h2
        · exact Or.inl h2
        · rw [h2]; exact Or.inr hp
      · exact Or.inr h
    · simp only [hp, if_false] at hx
      exact ih _ hx

theorem lookup_link_none (vm : HandleMap)
    (hk : ∀ k, k ∈ vm.map Prod.fst → k.isVariableNode = true) (t : AtomType)
    (o : List Handle) : vm.lookup (.link t o) = none := by
  cases h : vm.lookup (.link t o) with
  | none => rfl
  | some g =>
    have := hk _ (lookup_mem_keys vm _ g h)
    simp [Handle.isVariableNode] at this

mutual
theorem occurs_substitute_of_occurs (vm : HandleMap)
    (hk : ∀ k, k ∈ vm.map Prod.fst → k.isVariableNode = true) (x v : Handle)
    (hx : x.isVariableNode = true) (hv : occurs_in v (substitute vm x) = true) :
    ∀ body : Handle, occurs_in x body = true → occurs_in v (substitute vm body) = true
  | .UNDEFINED => by simp [occurs_in]
  | .node t n => by
    intro h
    simp only [occurs_in, decide_eq_true_eq] at h
    rw [← h]; exact hv
  | .link t o => by
    intro h
    simp only [occurs_in, Bool.or_eq_true, decide_eq_true_eq] at h
    rcases h with h | h
    · rw [h] at hx
      simp [Handle.isVariableNode] at hx
    · unfold substitute
      rw [lookup_link_none vm hk t o]
      simp only [occurs_in, Bool.or_eq_true, decide_eq_true_eq]
      exact Or.inr (occurs_substitute_seq_of_occurs vm hk x v hx hv o h)
theorem occurs_substitute_seq_of_occurs (vm : HandleMap)
    (hk : ∀ k, k ∈ vm.map Prod.fst → k.isVariableNode = true) (x v : Handle)
    (hx : x.isVariableNode = true) (hv : occurs_in v (substitute vm x) = true) :
    ∀ bodies : List Handle, occurs_in_seq x bodies = true
      → occurs_in_seq v (substitute_seq vm bodies) = true
  | [] => by simp [occurs_in_seq]
  | b :: bs => by
    intro h
    simp only [occurs_in_seq, Bool.or_eq_true] at h
    simp only [substitute_seq, occurs_in_seq, Bool.or_eq_true]
    rcases h with h | h
    · exact Or.inl (occurs_substitute_of_occurs vm hk x v hx hv b h)
    · exact Or.inr (occurs_substitute_seq_of_occurs vm hk x v hx hv bs h)
end

mutual
theorem variables_of_substitute (vm : HandleMap)
    (hk : ∀ k, k ∈ vm.map Prod.fst → k.isVariableNode = true) (body v : Handle)
    (hv : v.isVariableNode = true) :
    ∀ p : Handle,
      (∀ u : Handle, u.isVariableNode = true → occurs_in u p = true → occurs_in u body = true) →
      occurs_in v (substitute vm p) = true → occurs_in v (substitute vm body) = true
  | .UNDEFINED => by
    intro _ h
    simp [substitute, occurs_in] at h
  | .node t n => by
    intro hsup h
    by_cases hp : (Handle.node t n).isVariableNode = true
    · exact occurs_substitute_of_occurs vm hk (.node t n) v hp h body
        (hsup _ hp (by simp [occurs_in]))
    · have hnone : vm.lookup (.node t n) = none := by
        cases hl : vm.lookup (.node t n) with
        | none => rfl
        | some g => exact absurd (hk _ (lookup_mem_keys vm _ g hl)) hp
      unfold substitute at h
      rw [hnone] at h
      simp only [occurs_in, decide_eq_true_eq] at h
      rw [h] at hv
      exact absurd hv hp
  | .link t o => by
    intro hsup h
    unfold substitute at h
    rw [lookup_link_none vm hk t o] at h
    simp only [occurs_in, Bool.or_eq_true, decide_eq_true_eq] at h
    rcases h with h | h
    · rw [h] at hv
      simp [Handle.isVariableNode] at hv
    · exact variables_of_substitute_seq vm hk body v hv o
        (fun u hu ho => hsup u hu (by simp [occurs_in, ho])) h
theorem variables_of_substitute_seq (vm : HandleMap)
    (hk : ∀ k, k ∈ vm.map Prod.fst → k.isVariableNode = true) (body v : Handle)
    (hv : v.isVariableNode = true) :
    ∀ ps : List Handle,
      (∀ u : Handle, u.isVariableNode = true → occurs_in_seq u ps = true
        → occurs_in u body = true) →
      occurs_in_seq v (substitute_seq vm ps) = true → occurs_in v (substitute vm body) = true
  | [] => by
    intro _ h
    simp [substitute_seq, occurs_in_seq] at h
  | p :: ps => by
    intro hsup h
    simp only [substitute_seq, occurs_in_seq, Bool.or_eq_true] at h
    rcases h with h | h
    · exact variables_of_substitute vm hk body v hv p
        (fun u hu ho => hsup u hu (by simp [occurs_in_seq, ho])) h
    · exact variables_of_substitute_seq vm hk body v hv ps
        (fun u hu ho => hsup u hu (by simp [occurs_in_seq, ho])) h
end

/-- C24: for every rule `BindLink(VariableList(d), body, implicand)` in which
every VariableNode occurring in the implicand also occurs in the body, every
set `vars` of VariableNodes and every list of grounding maps, each BindLink
returned by `substitute_rule_part` declares every variable of the original
declaration that still occurs in its implicand: any member of `d` whose
declared variable occurs in the rewritten implicand is a member of the new
variable declaration. -/
theorem derived_rule_declares (t : AtomType) (d : HandleSeq) (body implicand : Handle)
    (vars : UnorderedHandleSet) (var_groundings : List HandleMap)
    (hvars : ∀ v, v ∈ vars → v.isVariableNode = true)
    (hsup : ∀ v : Handle, v.isVariableNode = true → occurs_in v implicand = true
      → occurs_in v body = true) :
    ∀ r, r ∈ substitute_rule_part (.link .BIND_LINK [.link t d, body, implicand]) vars
        var_groundings →
      ∃ newdecl newbody newimplicand,
        r = .link .BIND_LINK [newdecl, newbody, newimplicand]
        ∧ ∀ m, m ∈ d → declaration_occurs newimplicand m = true
            → m ∈ newdecl.getOutgoingSet := by
  intro r hr
  unfold substitute_rule_part at hr
  simp only [BindLinkCast, List.map_map, List.mem_map, Function.comp] at hr
  obtain ⟨g, _, hg⟩ := hr
  refine ⟨_, _, _, hg.symm, ?_⟩
  intro m hm hocc
  rw [gen_sub_varlist_of_list]
  simp only [Handle.getOutgoingSet, List.mem_filter]
  refine ⟨hm, ?_⟩
  have hk : ∀ k, k ∈ (g.foldl (fun (filtered : HandleMap) iv =>
      if iv.1 ∈ vars then map_set filtered iv.1 iv.2 else filtered) []).map Prod.fst
      → k.isVariableNode = true := by
    intro k hkm
    rcases keys_filtered_fold vars g [] k hkm with h | h
    · simp at h
    · exact hvars k h
  unfold declaration_occurs at hocc ⊢
  cases hd : declared_variable m with
  | none => simp [hd] at hocc
  | some v =>
    simp only [hd, Bool.and_eq_true] at hocc ⊢
    exact ⟨hocc.1, variables_of_substitute _ hk body v hocc.1 implicand hsup hocc.2⟩

/-- C24 at a concrete input: the rule `And(P($x), Q($x, $y)) => R($x, $y)` with
`$x` grounded by A; `$y` still occurs in the implicand `R(A, $y)` and is
declared by the derived rule. -/
theorem derived_rule_declares_witness :
    (∀ v, v ∈ [var_x] → v.isVariableNode = true)
    ∧ (∀ v : Handle, v.isVariableNode = true → occurs_in v (pred_R var_x var_y) = true
      → occurs_in v (.link .AND_LINK [pred_P var_x, pred_Q var_x var_y]) = true)
    ∧ ∀ r, r ∈ substitute_rule_part (.link .BIND_LINK [.link .VARIABLE_LIST [var_x, var_y],
          .link .AND_LINK [pred_P var_x, pred_Q var_x var_y], pred_R var_x var_y]) [var_x]
          [[(var_x, atom_A)]] →
      ∃ newdecl newbody newimplicand,
        r = .link .BIND_LINK [newdecl, newbody, newimplicand]
        ∧ ∀ m, m ∈ [var_x, var_y] → declaration_occurs newimplicand m = true
            → m ∈ newdecl.getOutgoingSet :=
  have hsup : ∀ v : Handle, v.isVariableNode = true → occurs_in v (pred_R var_x var_y) = true
      → occurs_in v (.link .AND_LINK [pred_P var_x, pred_Q var_x var_y]) = true := by
    intro v hv ho
    simp only [pred_R, occurs_in, occurs_in_seq, var_x, var_y, Bool.or_eq_true,
      decide_eq_true_eq, Bool.or_false] at ho
    rcases ho with h | h | h
    · rw [h] at hv
      simp [Handle.isVariableNode] at hv
    · rw [h]; decide
    · rw [h]; decide
  ⟨by decide, hsup,
    derived_rule_declares .VARIABLE_LIST [var_x, var_y]
      (.link .AND_LINK [pred_P var_x, pred_Q var_x var_y]) (pred_R var_x var_y)
      [var_x] [[(var_x, atom_A)]] (by decide) hsup⟩

end URE
